import Mathlib

/-!
Verification of the sqlr SQL templating and row-mapping engine.

This file is a shallow embedding, in Lean 4, of the core of the sqlr Go
package: the template parser / parameter binder (`parser.go`) and the
structural field-mapping / scan-plan engine (`mapper.go` and its revisions).
Pure Go functions become Lean functions; the parser's imperative loop over
byte indices becomes a fuel-indexed recursion over the same indices (the
fuel is an explicit bound on the number of loop iterations; the top-level
entry point supplies `q.length + 1`, which is proved sufficient); the
reflective value universe of Go (`any`) becomes the inductive type `Val`;
Go struct types become the inductive type `GoType`.

Modelling conventions, recorded once here:
* Go `string` is modelled as `List Char` (the parser operates bytewise on
  ASCII-relevant characters only).
* `map[string]any` is modelled as an association list; maps with
  non-string keys (reached only through reflection conversions) are out of
  the model.
* The two generational caches (`fieldCache`, `planCache`) memoize pure
  functions, so cache hits return exactly what a recomputation would; the
  model computes directly and omits the caches.
* `sql.Scanner` ("custom-conversion capability") is modelled by the
  `GoType.scannerT` constructor: a named type `S` whose POINTER receiver
  implements `sql.Scanner` (the common case, e.g. `sql.NullString`), so
  `*S` implements the interface and `S` itself does not.
* `database/sql`'s `Rows.Scan` per-destination conversion (`convertAssign`)
  is modelled by its documented behavior: a `**T` destination receives
  `nil` for a database NULL and an allocated converted value otherwise; a
  Scanner destination has its `Scan` method invoked with the raw value
  (modelled by an abstract conversion function); a plain value destination
  errors on NULL.
-/

/-- The four SQL dialects of sqlr (sqlr.go). -/
inductive Dialect where
  | postgres
  | mysql
  | sqlite
  | sqlserver
deriving DecidableEq, Repr

/-- The parser limits from `Config` (sqlr.go): `MaxParams` and `MaxNameLen`;
a zero value disables the corresponding check, exactly as in the source. -/
structure PCfg where
  maxParams : Nat
  maxNameLen : Nat
deriving DecidableEq, Repr

/-- The error kinds of sqlr (the `Err*` sentinels of sqlr.go together with
the data interpolated into the wrapping message). `outOfFuel` is an
artifact of the fuel-indexed embedding of the parser loop: it marks
exhaustion of the iteration bound and is proved unreachable. -/
inductive PErr where
  | paramMissing (name : String)
  | sliceEmpty (name : String)
  | rowsEmpty (name : String)
  | rowsMalformed (name : String)
  | columnNotFound (col : String) (name : String) (record : Nat)
  | tooManyParams (requested : Nat) (limit : Nat)
  | paramNameTooLong (name : String)
  | fieldAmbiguous (name : String)
  | fieldAmbiguousRows (col : String) (name : String) (record : Nat)
  | outOfFuel
deriving DecidableEq, Repr

/-- The lexical states of the parser state machine (parse, parser.go). -/
inductive PState where
  | text
  | sq
  | dq
  | bt
  | br
  | lc
  | bc
  | dqd
deriving DecidableEq, Repr

/-- Per-field metadata of a Go struct field: the Go field name, the parsed
`db` tag (name override, `-` exclusion, `scalar` option) and exportedness.
The source parses the raw tag string with `strings.Split`; the model takes
the parsed form as input, since no claim concerns tag-string parsing. -/
structure FMeta where
  fname : String
  tagName : Option String
  tagDash : Bool
  tagScalar : Bool
  exported : Bool
deriving DecidableEq, Repr

mutual
/-- Go types, as far as the mapper observes them: non-struct leaves
(`prim`), `time.Time` (a struct the mapper refuses to flatten), a type
whose pointer receiver implements `sql.Scanner` (`scannerT`), pointers,
and structs with their declared field list. -/
inductive GoType where
  | prim (name : String)
  | timeT
  | scannerT (name : String)
  | ptrT (t : GoType)
  | structT (name : String) (fields : Fields)

/-- A Go struct's declared field list (metadata and type per field, in
declaration order). -/
inductive Fields where
  | nil
  | cons (meta : FMeta) (ftype : GoType) (rest : Fields)
end

/-- The Go value universe `any`, as far as parse/scan observe it:
`null` is a nil `any`; `vbytes` is any byte-slice-kinded value (`[]byte`
and aliases); `vlist` is a slice/array with non-byte elements; `vscalar`
is the `scalar{}` wrapper; `vvaluer` a `driver.Valuer`; `vambig` the
`ambiguousSentinel`; `vstructV` a struct value paired with its type;
`vptr` a pointer (`none` = nil); `vmap` a `map[string]any`; `vzero` the
zero value of an opaque leaf type (used by the scan model's allocator). -/
inductive Val where
  | null
  | vint (n : Int)
  | vstr (s : String)
  | vbytes (bs : List Nat)
  | vlist (vs : List Val)
  | vscalar (v : Val)
  | vvaluer (v : Val)
  | vambig (name : String)
  | vstructV (t : GoType) (fields : List Val)
  | vptr (v : Option Val)
  | vmap (entries : List (String × Val))
  | vzero (t : GoType)

/-- A flattened-leaf record: full index path, `scalar` tag option,
ambiguity flag (fieldInfo, parser.go). -/
structure FieldInfo where
  index : List Nat
  scalar : Bool
  ambiguous : Bool
deriving DecidableEq, Repr

/-- The column-name → fieldInfo mapping produced by fieldIndexMap,
modelled as an association list (lookup = first match). -/
abbrev FMap := List (String × FieldInfo)

/-- Association-list lookup (Go map read). -/
def assocLookup {α : Type} (es : List (String × α)) (k : String) : Option α :=
  match es with
  | [] => none
  | (k', v) :: rest => if k' = k then some v else assocLookup rest k

/-- Lookup in an `FMap`. -/
def fmLookup (m : FMap) (k : String) : Option FieldInfo :=
  assocLookup m k

/-- Replace the value stored under a key (Go map overwrite; the key is
known to be present). -/
def assocReplace {α : Type} (es : List (String × α)) (k : String) (v : α) :
    List (String × α) :=
  match es with
  | [] => []
  | (k', v') :: rest =>
      if k' = k then (k', v) :: rest else (k', v') :: assocReplace rest k v

/-- Leaf insertion with collision handling (the leaf case of `walk` in
fieldIndexMap, parser.go): a second leaf with an already-present name
marks the name ambiguous (`fieldInfo{ambiguous: true}`, path dropped);
an already-ambiguous entry is left as is. -/
def insertLeaf (m : FMap) (name : String) (fi : FieldInfo) : FMap :=
  match fmLookup m name with
  | some prev =>
      if prev.ambiguous then m
      else assocReplace m name { index := [], scalar := false, ambiguous := true }
  | none => m ++ [(name, fi)]

/-- Whether `*ft` implements `sql.Scanner` (`reflect.PointerTo(ft).Implements`):
true exactly for a `scannerT` value type (its pointer receiver implements);
a pointer-to-pointer never does. -/
def ptrToImplementsScanner : GoType → Bool
  | .scannerT _ => true
  | _ => false

/-- Whether `ft` itself implements `sql.Scanner` (`ft.Implements`): true
exactly for `*S` with `S` a `scannerT` (pointer receiver). -/
def typeImplementsScanner : GoType → Bool
  | .ptrT (.scannerT _) => true
  | _ => false

/-- One pointer dereference of a type (`if tt.Kind() == Pointer { tt = tt.Elem() }`). -/
def derefOnce : GoType → GoType
  | .ptrT t => t
  | t => t

/-- shouldFlatten (parser.go): descend into a field iff it is not
Scanner-capable and is (after at most one pointer dereference) a struct
other than `time.Time`. `timeT` is a separate constructor here, so the
`time.Time` exclusion is the fact that `timeT` is not `structT`. -/
def shouldFlatten (ft : GoType) : Bool :=
  if ptrToImplementsScanner ft || typeImplementsScanner ft then false
  else
    match derefOnce ft with
    | .structT _ _ => true
    | _ => false

/-- The exposed column name and scalar flag of a field (`db` tag handling
in fieldIndexMap, parser.go). -/
def exposedName (meta : FMeta) : String :=
  match meta.tagName with
  | some s => s
  | none => meta.fname

mutual
/-- The recursive `walk` of fieldIndexMap (parser.go), type part: follow
pointers, then walk a struct's fields. The source's `visited` cycle guard
cannot fire on inductive (finite-tree) types — a struct type is strictly
larger than every type it contains, so no type is its own ancestor — and
is therefore omitted. -/
def walkT (t : GoType) (path : List Nat) (m : FMap) : FMap :=
  match t with
  | .ptrT t' => walkT t' path m
  | .structT _ fs => walkFs fs path 0 m
  | _ => m

/-- The recursive `walk` of fieldIndexMap, field-list part: skip
unexported and `db:"-"` fields; flatten struct-shaped fields; insert
leaves with collision handling. -/
def walkFs (fs : Fields) (path : List Nat) (i : Nat) (m : FMap) : FMap :=
  match fs with
  | .nil => m
  | .cons meta ft rest =>
      let m' :=
        if meta.exported = false then m
        else if meta.tagDash then m
        else if shouldFlatten ft then walkT ft (path ++ [i]) m
        else insertLeaf m (exposedName meta)
               { index := path ++ [i], scalar := meta.tagScalar, ambiguous := false }
      walkFs rest path (i + 1) m'
end

/-- fieldIndexMap (parser.go): flatten a (possibly pointer-to-) struct
type into its column-name → fieldInfo mapping. For non-struct types the
result is the empty mapping, as in the source. The source memoizes this
pure function in a generational cache; the model computes it directly. -/
def fieldIndexMap (t : GoType) : FMap :=
  walkT t [] []

/-- isAlphaUnderscore (parser.go). -/
def isAlphaUnderscore (c : Char) : Bool :=
  ('A' ≤ c ∧ c ≤ 'Z') ∨ ('a' ≤ c ∧ c ≤ 'z') ∨ c = '_'

/-- isAlphaNumUnderscore (parser.go). -/
def isAlphaNumUnderscore (c : Char) : Bool :=
  isAlphaUnderscore c ∨ ('0' ≤ c ∧ c ≤ '9')

/-- ASCII whitespace, the relevant fragment of `strings.TrimSpace`. -/
def isSpaceCh (c : Char) : Bool :=
  c = ' ' ∨ c = '\t' ∨ c = '\n' ∨ c = '\r'

/-- `strings.TrimSpace` on the characters of a token. -/
def trimChars (l : List Char) : List Char :=
  ((l.dropWhile isSpaceCh).reverse.dropWhile isSpaceCh).reverse

/-- The slice `q[a:b]` of a Go string. -/
def listSlice (q : List Char) (a b : Nat) : List Char :=
  (q.drop a).take (b - a)

/-- Length of the leading run of identifier characters (the `for k < len(q)
&& isAlphaNumUnderscore(q[k])` scan of parse, parser.go, applied to a
suffix). -/
def alnumRun : List Char → Nat
  | [] => 0
  | c :: rest => if isAlphaNumUnderscore c then alnumRun rest + 1 else 0

/-- readDollarTag (parser.go) at absolute position `i` (where `q[i] = '$'`):
scan the alphanumeric run after the `$` and require a closing `$`;
returns the full tag including both dollars. -/
def readDollarTag (q : List Char) (i : Nat) : Option (List Char) :=
  let j := i + 1 + alnumRun (q.drop (i + 1))
  if q.get? j = some '$' then some (listSlice q i (j + 1)) else none

/-- The loop of readCols (parser.go) on the suffix after `{`: accumulate
the current raw token and the finished columns; returns the number of
characters consumed (including the closing `}`) and the column list.
Mirrors the source: a comma with an all-whitespace token fails; a closing
brace with a nonempty raw token that trims to empty fails; a closing
brace directly after a comma (or after `{`) just closes. -/
def readColsAux : List Char → List Char → List (List Char) → Option (Nat × List (List Char))
  | [], _, _ => none
  | c :: rest, cur, cols =>
      if c = '}' then
        if cur ≠ [] then
          let tok := trimChars cur
          if tok = [] then none else some (1, cols ++ [tok])
        else some (1, cols)
      else if c = ',' then
        let tok := trimChars cur
        if tok = [] then none
        else (readColsAux rest [] (cols ++ [tok])).map (fun p => (p.1 + 1, p.2))
      else (readColsAux rest (cur ++ [c]) cols).map (fun p => (p.1 + 1, p.2))

/-- readCols (parser.go): parse `{col1,col2,...}` starting at the index of
`{`; returns the index just after `}` and the column names. -/
def readCols (q : List Char) (k : Nat) : Option (Nat × List String) :=
  (readColsAux (q.drop (k + 1)) [] []).map
    (fun p => (k + 1 + p.1, p.2.map (fun cs => (⟨cs⟩ : String))))

/-- `strings.Index` on a suffix: offset of the first occurrence of `pat`. -/
def findSubAux (pat : List Char) : List Char → Nat → Option Nat
  | l, ofs =>
      if pat.isPrefixOf l then some ofs
      else
        match l with
        | [] => none
        | _ :: rest => findSubAux pat rest (ofs + 1)

/-- `strings.Index(q[i:], pat)` translated to an absolute index into `q`. -/
def findSub (q pat : List Char) (i : Nat) : Option Nat :=
  (findSubAux pat (q.drop i) 0).map (i + ·)

/-- deIndirect (parser.go): unwrap interface and pointer wrappers, but
keep a nil pointer as-is. -/
def deIndirect : Val → Val
  | .vptr (some v) => deIndirect v
  | v => v

/-- The unwrap loops of singleLookup / getColValue / rowsFromSliceValue
(parser.go): unwrap pointers; a nil pointer yields not-found (`none`). A
nil `any` (`Val.null`) is kept: the source's loop skips an invalid value
and the subsequent kind switch rejects it. -/
def deIndirectOpt : Val → Option Val
  | .vptr none => none
  | .vptr (some v) => deIndirectOpt v
  | v => some v

/-- The pointer-following step inside getValueByPathAny (parser.go): a nil
pointer anywhere on the way is reported as SQL NULL (`none` here means
"nil was hit"). -/
def stripPtrsNil : Val → Option Val
  | .vptr none => none
  | .vptr (some v) => stripPtrsNil v
  | v => some v

/-- getValueByPathAny (parser.go): walk `path` from `root`; a nil pointer
along the path, or a nil pointer/nil interface at the leaf, yields
`some Val.null` (SQL NULL, the source's `(nil, true)`); a structural
mismatch yields `none` (the source's `(nil, false)`); a non-nil pointer
leaf is returned as-is. -/
def getValueByPathAny : Val → List Nat → Option Val
  | _, [] => none
  | v, idx :: rest =>
      match stripPtrsNil v with
      | none => some .null
      | some w =>
          match w with
          | .vstructV _ fs =>
              match fs.get? idx with
              | none => none
              | some f =>
                  if rest.isEmpty then
                    match f with
                    | .vptr none => some .null
                    | f' => some f'
                  else getValueByPathAny f rest
          | _ => none

/-- singleLookup (parser.go): resolve `:name` against one bound input.
The `map[string]any` fast path and the general (string-keyed) map case
coincide in the model. A struct field marked ambiguous yields the
`ambiguousSentinel`; a `scalar`-tagged field is wrapped in `vscalar`;
the `ok` result of getValueByPathAny is discarded exactly as in the
source (`val, _ := ...`), so a mismatch degrades to a nil value. -/
def singleLookup (v : Val) (name : String) : Option Val :=
  match deIndirectOpt v with
  | none => none
  | some w =>
      match w with
      | .vmap es => assocLookup es name
      | .vstructV t _ =>
          match fmLookup (fieldIndexMap t) name with
          | some fi =>
              if fi.ambiguous then some (.vambig name)
              else
                let val := (getValueByPathAny w fi.index).getD .null
                if fi.scalar then some (.vscalar val) else some val
          | none => none
      | _ => none

/-- getColValue (parser.go): extract a row value by column name from a
struct or map row. Note that, unlike singleLookup, the source does not
check the ambiguity flag here; an ambiguous fieldInfo has an empty index
path, getValueByPathAny then reports a mismatch, and the discarded `ok`
degrades the result to a nil value with `found = true`. -/
def getColValue (row : Val) (col : String) : Option Val :=
  match deIndirectOpt row with
  | none => none
  | some w =>
      match w with
      | .vmap es => assocLookup es col
      | .vstructV t _ =>
          match fmLookup (fieldIndexMap t) col with
          | some fi => some ((getValueByPathAny w fi.index).getD .null)
          | none => none
      | _ => none

/-- rowsFromSliceValue (parser.go): accept a slice whose first element
(after unwrapping) is a struct or map; an empty slice is accepted as an
empty row list (the caller then reports RowsEmpty). -/
def rowsFromSliceValue (v : Val) : Option (List Val) :=
  match deIndirectOpt v with
  | none => none
  | some w =>
      match w with
      | .vlist vs =>
          match vs with
          | [] => some []
          | e :: _ =>
              match deIndirectOpt e with
              | none => none
              | some (.vstructV _ _) => some vs
              | some (.vmap _) => some vs
              | some _ => none
      | _ => none

/-- singleRowsLookup (parser.go): a string-keyed map entry under `name`,
or — when `name` is the conventional "rows" — the input itself as a
slice of rows. As in the source, the map case is checked on the input
directly (no pointer unwrap first), and a present map entry that is not
a valid row slice makes this input yield not-found. -/
def singleRowsLookup (v : Val) (name : String) : Option (List Val) :=
  match v with
  | .vmap es =>
      match assocLookup es name with
      | some mv => rowsFromSliceValue mv
      | none => if name = "rows" then rowsFromSliceValue v else none
  | _ => if name = "rows" then rowsFromSliceValue v else none

/-- makeMultiResolver's value resolver (parser.go): last-bound-wins over
the input list (later inputs are later in the list and are consulted
first). -/
def multiLookup (inputs : List Val) (name : String) : Option Val :=
  match inputs with
  | [] => none
  | x :: rest =>
      match multiLookup rest name with
      | some v => some v
      | none => singleLookup x name

/-- makeMultiResolver's rows resolver (parser.go), same precedence. -/
def multiRowsLookup (inputs : List Val) (name : String) : Option (List Val) :=
  match inputs with
  | [] => none
  | x :: rest =>
      match multiRowsLookup rest name with
      | some v => some v
      | none => singleRowsLookup x name

/-- writePlaceholder (parser.go): the dialect-specific placeholder token
for 1-based ordinal `idx` (`$n`, `@pn`, or the dialect-invariant `?`). -/
def phTok (d : Dialect) (idx : Nat) : List Char :=
  match d with
  | .postgres => '$' :: (Nat.repr idx).data
  | .sqlserver => '@' :: 'p' :: (Nat.repr idx).data
  | .mysql => ['?']
  | .sqlite => ['?']

/-- The `ensureAdd` closure of parse (parser.go): the MaxParams ceiling,
checked before a batch of `add` placeholders is emitted on top of the
`cur` already emitted; 0 disables the limit. -/
def ensureAdd (cfg : PCfg) (cur add : Nat) : Except PErr Unit :=
  if cfg.maxParams > 0 ∧ cur + add > cfg.maxParams then
    .error (.tooManyParams (cur + add) cfg.maxParams)
  else .ok ()

/-- The comma-separated placeholder emission loop shared by slice
expansion and by a row tuple's columns (parse, parser.go): one placeholder
and one argument per value, `", "` between consecutive ones, ordinal
incremented per emission. The fourth component records the emitted
ordinals (a ghost trace; the source only writes the rendered tokens). -/
def emitSeq (d : Dialect) (vs : List Val) (isFirst : Bool) (n : Nat)
    (buf : List Char) (args : List Val) (ords : List Nat) :
    Nat × List Char × List Val × List Nat :=
  match vs with
  | [] => (n, buf, args, ords)
  | v :: rest =>
      let buf1 := if isFirst then buf else buf ++ [',', ' ']
      emitSeq d rest false (n + 1) (buf1 ++ phTok d (n + 1)) (args ++ [v]) (ords ++ [n + 1])

/-- A fallible map over a list (the per-element error-propagating loops of
the source, e.g. the column-path precompute). -/
def mapME {α β : Type} (f : α → Except PErr β) : List α → Except PErr (List β)
  | [] => .ok []
  | a :: rest => do
      let b ← f a
      let bs ← mapME f rest
      .ok (b :: bs)

/-- The per-struct-type column-path precomputation of the rows fast path
(parse, parser.go): look up every requested column in the type's field
index map; a missing column is ColumnNotFound, an ambiguous one
FieldAmbiguous, both annotated with the failing record index. -/
def computePaths (cols : List String) (t : GoType) (name : String) (r : Nat) :
    Except PErr (List (List Nat)) :=
  mapME (fun col =>
    match fmLookup (fieldIndexMap t) col with
    | none => .error (.columnNotFound col name r)
    | some fi =>
        if fi.ambiguous then .error (.fieldAmbiguousRows col name r)
        else .ok fi.index) cols

/-- Resolution of one row's column values in a `:name{...}` block (the
per-record body of parse's rows loop, parser.go). A struct row resolves
through its type's precomputed column paths (the source caches these per
type; resolution is pure, so recomputation is observationally identical
and the cache is omitted); any other row goes through getColValue — for a
string-keyed map this coincides with the source's map fast path. A value
the source's `ok` flag rejects is ColumnNotFound at this record. -/
def resolveRow (row : Val) (cols : List String) (name : String) (r : Nat) :
    Except PErr (List Val) :=
  match deIndirect row with
  | .vstructV t fs => do
      let paths ← computePaths cols t name r
      mapME (fun cp =>
        match getValueByPathAny (.vstructV t fs) cp.2 with
        | some v => .ok v
        | none => .error (.columnNotFound cp.1 name r)) (cols.zip paths)
  | _ =>
      mapME (fun col =>
        match getColValue row col with
        | some v => .ok v
        | none => .error (.columnNotFound col name r)) cols

/-- The `VALUES (...), (...)` emission loop of parse (parser.go): per row,
an opening parenthesis, the comma-separated column placeholders, a closing
parenthesis, with `", "` between rows; arguments appended in row-major
order. -/
def emitRowsLoop (d : Dialect) (cols : List String) (name : String) :
    List Val → Nat → Nat → List Char → List Val → List Nat →
    Except PErr (Nat × List Char × List Val × List Nat)
  | [], _, n, buf, args, ords => .ok (n, buf, args, ords)
  | row :: rest, r, n, buf, args, ords =>
      match resolveRow row cols name r with
      | .error e => .error e
      | .ok vals =>
          let buf1 := if r = 0 then buf else buf ++ [',', ' ']
          match emitSeq d vals true n (buf1 ++ ['(']) args ords with
          | (n', buf', args', ords') =>
              emitRowsLoop d cols name rest (r + 1) n' (buf' ++ [')']) args' ords'

/-- Whether the previous raw character is a colon (`i > 0 && q[i-1] == ':'`
in parse, parser.go). -/
def prevIsColon (q : List Char) (i : Nat) : Bool :=
  match i with
  | 0 => false
  | i' + 1 => q.get? i' = some ':'

/-- The placeholder-entry test of parse (parser.go): at a `:`, require a
following character that is not another `:` (cast operator), no `:`
immediately before, and an identifier-start character. The source nests
the identifier-start check inside the colon checks; both failure paths
fall through to the default write, so merging them is equivalent. -/
def placeholderStart (q : List Char) (i : Nat) : Bool :=
  (match q.get? (i + 1) with
   | some c1 => decide (c1 ≠ ':') && isAlphaUnderscore c1
   | none => false) && !(prevIsColon q i)

/-- The main loop of parse (parser.go), one constructor case per lexical
state, translated index-for-index. `fuel` bounds the number of loop
iterations (every iteration strictly increases `i`, so `q.length + 1 - i`
iterations suffice; exhaustion yields the artificial `outOfFuel` error,
proved unreachable below). In addition to the rendered text and the
argument list of the source, the result carries the ghost list of emitted
placeholder ordinals. -/
def parseLoopF (d : Dialect) (cfg : PCfg) (lookup : String → Option Val)
    (rowsLookup : String → Option (List Val)) (q : List Char) :
    Nat → Nat → PState → List Char → Nat → List Char → List Val → List Nat →
    Except PErr (List Char × List Val × List Nat)
  | 0, _, _, _, _, _, _, _ => .error .outOfFuel
  | fuel + 1, i, st, dqTag, n, buf, args, ords =>
      match q.get? i with
      | none => .ok (buf, args, ords)
      | some c =>
          match st with
          | .text =>
              if c = '-' ∧ q.get? (i + 1) = some '-' then
                parseLoopF d cfg lookup rowsLookup q fuel (i + 2) .lc dqTag n (buf ++ ['-', '-']) args ords
              else if c = '#' ∧ d = .mysql then
                parseLoopF d cfg lookup rowsLookup q fuel (i + 1) .lc dqTag n (buf ++ ['#']) args ords
              else if c = '/' ∧ q.get? (i + 1) = some '*' then
                parseLoopF d cfg lookup rowsLookup q fuel (i + 2) .bc dqTag n (buf ++ ['/', '*']) args ords
              else if c = '\'' then
                parseLoopF d cfg lookup rowsLookup q fuel (i + 1) .sq dqTag n (buf ++ [c]) args ords
              else if c = '"' then
                parseLoopF d cfg lookup rowsLookup q fuel (i + 1) .dq dqTag n (buf ++ [c]) args ords
              else if c = Char.ofNat 96 ∧ (d = .mysql ∨ d = .sqlite) then
                parseLoopF d cfg lookup rowsLookup q fuel (i + 1) .bt dqTag n (buf ++ [c]) args ords
              else if c = '[' ∧ d = .sqlserver then
                parseLoopF d cfg lookup rowsLookup q fuel (i + 1) .br dqTag n (buf ++ [c]) args ords
              else if c = '$' then
                -- a '$' without a well-formed opening tag falls through to the
                -- default write (the source's if-block has no else)
                match readDollarTag q i with
                | some tag =>
                    parseLoopF d cfg lookup rowsLookup q fuel (i + tag.length) .dqd tag n (buf ++ tag) args ords
                | none =>
                    parseLoopF d cfg lookup rowsLookup q fuel (i + 1) .text dqTag n (buf ++ [c]) args ords
              else if c = ':' ∧ placeholderStart q i then
                -- placeholder recognized: read the identifier
                let j := i + 1
                let k := j + 1 + alnumRun (q.drop (j + 1))
                let name : String := ⟨listSlice q j k⟩
                if cfg.maxNameLen > 0 ∧ k - j > cfg.maxNameLen then
                  .error (.paramNameTooLong name)
                else if q.get? k = some '{' then
                  -- rows block :name{col1,col2,...}
                  match readCols q k with
                  | none => .error (.rowsMalformed name)
                  | some (k2, cols) =>
                      if cols.isEmpty then .error (.rowsMalformed name)
                      else
                        match rowsLookup name with
                        | none => .error (.paramMissing name)
                        | some rows =>
                            if rows.isEmpty then .error (.rowsEmpty name)
                            else
                              match ensureAdd cfg n (rows.length * cols.length) with
                              | .error e => .error e
                              | .ok _ =>
                                  match emitRowsLoop d cols name rows 0 n buf args ords with
                                  | .error e => .error e
                                  | .ok (n', buf', args', ords') =>
                                      parseLoopF d cfg lookup rowsLookup q fuel k2 .text dqTag n' buf' args' ords'
                else
                  -- simple :name (single value or slice expansion)
                  match lookup name with
                  | none => .error (.paramMissing name)
                  | some v =>
                      match v with
                      | .vambig a => .error (.fieldAmbiguous a)
                      | .vscalar w =>
                          match ensureAdd cfg n 1 with
                          | .error e => .error e
                          | .ok _ =>
                              parseLoopF d cfg lookup rowsLookup q fuel k .text dqTag (n + 1)
                                (buf ++ phTok d (n + 1)) (args ++ [w]) (ords ++ [n + 1])
                      | .vvaluer w =>
                          match ensureAdd cfg n 1 with
                          | .error e => .error e
                          | .ok _ =>
                              parseLoopF d cfg lookup rowsLookup q fuel k .text dqTag (n + 1)
                                (buf ++ phTok d (n + 1)) (args ++ [.vvaluer w]) (ords ++ [n + 1])
                      | .vbytes bs =>
                          match ensureAdd cfg n 1 with
                          | .error e => .error e
                          | .ok _ =>
                              parseLoopF d cfg lookup rowsLookup q fuel k .text dqTag (n + 1)
                                (buf ++ phTok d (n + 1)) (args ++ [.vbytes bs]) (ords ++ [n + 1])
                      | .vlist vs =>
                          if vs.isEmpty then .error (.sliceEmpty name)
                          else
                            match ensureAdd cfg n vs.length with
                            | .error e => .error e
                            | .ok _ =>
                                match emitSeq d vs true n buf args ords with
                                | (n', buf', args', ords') =>
                                    parseLoopF d cfg lookup rowsLookup q fuel k .text dqTag n' buf' args' ords'
                      | other =>
                          match ensureAdd cfg n 1 with
                          | .error e => .error e
                          | .ok _ =>
                              parseLoopF d cfg lookup rowsLookup q fuel k .text dqTag (n + 1)
                                (buf ++ phTok d (n + 1)) (args ++ [other]) (ords ++ [n + 1])
              else
                parseLoopF d cfg lookup rowsLookup q fuel (i + 1) .text dqTag n (buf ++ [c]) args ords
          | .sq =>
              if c = '\\' then
                match q.get? (i + 1) with
                | some c2 => parseLoopF d cfg lookup rowsLookup q fuel (i + 2) .sq dqTag n (buf ++ [c, c2]) args ords
                | none => parseLoopF d cfg lookup rowsLookup q fuel (i + 1) .sq dqTag n (buf ++ [c]) args ords
              else if c = '\'' then
                match q.get? (i + 1) with
                | some c2 =>
                    if c2 = '\'' then
                      parseLoopF d cfg lookup rowsLookup q fuel (i + 2) .sq dqTag n (buf ++ [c, c2]) args ords
                    else parseLoopF d cfg lookup rowsLookup q fuel (i + 1) .text dqTag n (buf ++ [c]) args ords
                | none => parseLoopF d cfg lookup rowsLookup q fuel (i + 1) .text dqTag n (buf ++ [c]) args ords
              else parseLoopF d cfg lookup rowsLookup q fuel (i + 1) .sq dqTag n (buf ++ [c]) args ords
          | .dq =>
              if c = '\\' then
                match q.get? (i + 1) with
                | some c2 => parseLoopF d cfg lookup rowsLookup q fuel (i + 2) .dq dqTag n (buf ++ [c, c2]) args ords
                | none => parseLoopF d cfg lookup rowsLookup q fuel (i + 1) .dq dqTag n (buf ++ [c]) args ords
              else if c = '"' then
                match q.get? (i + 1) with
                | some c2 =>
                    if c2 = '"' then
                      parseLoopF d cfg lookup rowsLookup q fuel (i + 2) .dq dqTag n (buf ++ [c, c2]) args ords
                    else parseLoopF d cfg lookup rowsLookup q fuel (i + 1) .text dqTag n (buf ++ [c]) args ords
                | none => parseLoopF d cfg lookup rowsLookup q fuel (i + 1) .text dqTag n (buf ++ [c]) args ords
              else parseLoopF d cfg lookup rowsLookup q fuel (i + 1) .dq dqTag n (buf ++ [c]) args ords
          | .bt =>
              if c = Char.ofNat 96 then
                match q.get? (i + 1) with
                | some c2 =>
                    if c2 = Char.ofNat 96 then
                      parseLoopF d cfg lookup rowsLookup q fuel (i + 2) .bt dqTag n (buf ++ [c, c2]) args ords
                    else parseLoopF d cfg lookup rowsLookup q fuel (i + 1) .text dqTag n (buf ++ [c]) args ords
                | none => parseLoopF d cfg lookup rowsLookup q fuel (i + 1) .text dqTag n (buf ++ [c]) args ords
              else parseLoopF d cfg lookup rowsLookup q fuel (i + 1) .bt dqTag n (buf ++ [c]) args ords
          | .br =>
              if c = ']' then
                match q.get? (i + 1) with
                | some c2 =>
                    if c2 = ']' then
                      parseLoopF d cfg lookup rowsLookup q fuel (i + 2) .br dqTag n (buf ++ [c, c2]) args ords
                    else parseLoopF d cfg lookup rowsLookup q fuel (i + 1) .text dqTag n (buf ++ [c]) args ords
                | none => parseLoopF d cfg lookup rowsLookup q fuel (i + 1) .text dqTag n (buf ++ [c]) args ords
              else parseLoopF d cfg lookup rowsLookup q fuel (i + 1) .br dqTag n (buf ++ [c]) args ords
          | .lc =>
              if c = '\n' ∨ c = '\r' then
                parseLoopF d cfg lookup rowsLookup q fuel (i + 1) .text dqTag n (buf ++ [c]) args ords
              else parseLoopF d cfg lookup rowsLookup q fuel (i + 1) .lc dqTag n (buf ++ [c]) args ords
          | .bc =>
              if c = '*' ∧ q.get? (i + 1) = some '/' then
                parseLoopF d cfg lookup rowsLookup q fuel (i + 2) .text dqTag n (buf ++ ['*', '/']) args ords
              else parseLoopF d cfg lookup rowsLookup q fuel (i + 1) .bc dqTag n (buf ++ [c]) args ords
          | .dqd =>
              if dqTag.isEmpty then
                parseLoopF d cfg lookup rowsLookup q fuel q.length .dqd dqTag n (buf ++ q.drop i) args ords
              else
                match findSub q dqTag i with
                | none =>
                    parseLoopF d cfg lookup rowsLookup q fuel q.length .dqd dqTag n (buf ++ q.drop i) args ords
                | some p =>
                    parseLoopF d cfg lookup rowsLookup q fuel (p + dqTag.length) .text [] n
                      (buf ++ listSlice q i p ++ dqTag) args ords

/-- parse (parser.go): render a template against the given bound inputs.
The third result component is the ghost trace of emitted ordinals. -/
def parse (d : Dialect) (q : List Char) (inputs : List Val) (cfg : PCfg) :
    Except PErr (List Char × List Val × List Nat) :=
  parseLoopF d cfg (multiLookup inputs) (multiRowsLookup inputs) q (q.length + 1) 0 .text [] 0 [] [] []

/-- parse with the Go-shaped result: on error, the source returns
`("", nil, err)`, i.e. empty text and an empty argument list. -/
def parseGo (d : Dialect) (q : List Char) (inputs : List Val) (cfg : PCfg) :
    (List Char × List Val) × Option PErr :=
  match parse d q inputs cfg with
  | .ok (t, a, _) => ((t, a), none)
  | .error e => (([], []), some e)

/-- A placeholder occurrence recognized in Plain state: the scalar form
`:name` or the row-block form `:name{col1,...}`. -/
inductive Ph where
  | scalar (name : String)
  | rowsB (name : String) (cols : List String)
deriving DecidableEq, Repr

/-- The structural scanner: the same lexical state machine as `parseLoopF`,
branch for branch, but collecting only the Plain-state placeholder
occurrences of the template, with no bindings and no emission. `none`
means the template itself is rejected (over-long name, malformed column
list) or the fuel bound was exhausted. This is the specification-side
definition of "the placeholders a template contains"; the refinement
lemma below proves `parseLoopF` processes exactly this list. -/
def scanLoopF (d : Dialect) (cfg : PCfg) (q : List Char) :
    Nat → Nat → PState → List Char → Option (List Ph)
  | 0, _, _, _ => none
  | fuel + 1, i, st, dqTag =>
      match q.get? i with
      | none => some []
      | some c =>
          match st with
          | .text =>
              if c = '-' ∧ q.get? (i + 1) = some '-' then
                scanLoopF d cfg q fuel (i + 2) .lc dqTag
              else if c = '#' ∧ d = .mysql then
                scanLoopF d cfg q fuel (i + 1) .lc dqTag
              else if c = '/' ∧ q.get? (i + 1) = some '*' then
                scanLoopF d cfg q fuel (i + 2) .bc dqTag
              else if c = '\'' then
                scanLoopF d cfg q fuel (i + 1) .sq dqTag
              else if c = '"' then
                scanLoopF d cfg q fuel (i + 1) .dq dqTag
              else if c = Char.ofNat 96 ∧ (d = .mysql ∨ d = .sqlite) then
                scanLoopF d cfg q fuel (i + 1) .bt dqTag
              else if c = '[' ∧ d = .sqlserver then
                scanLoopF d cfg q fuel (i + 1) .br dqTag
              else if c = '$' then
                match readDollarTag q i with
                | some tag => scanLoopF d cfg q fuel (i + tag.length) .dqd tag
                | none => scanLoopF d cfg q fuel (i + 1) .text dqTag
              else if c = ':' ∧ placeholderStart q i then
                let j := i + 1
                let k := j + 1 + alnumRun (q.drop (j + 1))
                let name : String := ⟨listSlice q j k⟩
                if cfg.maxNameLen > 0 ∧ k - j > cfg.maxNameLen then none
                else if q.get? k = some '{' then
                  match readCols q k with
                  | none => none
                  | some (k2, cols) =>
                      if cols.isEmpty then none
                      else (scanLoopF d cfg q fuel k2 .text dqTag).map (Ph.rowsB name cols :: ·)
                else (scanLoopF d cfg q fuel k .text dqTag).map (Ph.scalar name :: ·)
              else
                scanLoopF d cfg q fuel (i + 1) .text dqTag
          | .sq =>
              if c = '\\' then
                match q.get? (i + 1) with
                | some _ => scanLoopF d cfg q fuel (i + 2) .sq dqTag
                | none => scanLoopF d cfg q fuel (i + 1) .sq dqTag
              else if c = '\'' then
                match q.get? (i + 1) with
                | some c2 =>
                    if c2 = '\'' then scanLoopF d cfg q fuel (i + 2) .sq dqTag
                    else scanLoopF d cfg q fuel (i + 1) .text dqTag
                | none => scanLoopF d cfg q fuel (i + 1) .text dqTag
              else scanLoopF d cfg q fuel (i + 1) .sq dqTag
          | .dq =>
              if c = '\\' then
                match q.get? (i + 1) with
                | some _ => scanLoopF d cfg q fuel (i + 2) .dq dqTag
                | none => scanLoopF d cfg q fuel (i + 1) .dq dqTag
              else if c = '"' then
                match q.get? (i + 1) with
                | some c2 =>
                    if c2 = '"' then scanLoopF d cfg q fuel (i + 2) .dq dqTag
                    else scanLoopF d cfg q fuel (i + 1) .text dqTag
                | none => scanLoopF d cfg q fuel (i + 1) .text dqTag
              else scanLoopF d cfg q fuel (i + 1) .dq dqTag
          | .bt =>
              if c = Char.ofNat 96 then
                match q.get? (i + 1) with
                | some c2 =>
                    if c2 = Char.ofNat 96 then scanLoopF d cfg q fuel (i + 2) .bt dqTag
                    else scanLoopF d cfg q fuel (i + 1) .text dqTag
                | none => scanLoopF d cfg q fuel (i + 1) .text dqTag
              else scanLoopF d cfg q fuel (i + 1) .bt dqTag
          | .br =>
              if c = ']' then
                match q.get? (i + 1) with
                | some c2 =>
                    if c2 = ']' then scanLoopF d cfg q fuel (i + 2) .br dqTag
                    else scanLoopF d cfg q fuel (i + 1) .text dqTag
                | none => scanLoopF d cfg q fuel (i + 1) .text dqTag
              else scanLoopF d cfg q fuel (i + 1) .br dqTag
          | .lc =>
              if c = '\n' ∨ c = '\r' then scanLoopF d cfg q fuel (i + 1) .text dqTag
              else scanLoopF d cfg q fuel (i + 1) .lc dqTag
          | .bc =>
              if c = '*' ∧ q.get? (i + 1) = some '/' then
                scanLoopF d cfg q fuel (i + 2) .text dqTag
              else scanLoopF d cfg q fuel (i + 1) .bc dqTag
          | .dqd =>
              if dqTag.isEmpty then scanLoopF d cfg q fuel q.length .dqd dqTag
              else
                match findSub q dqTag i with
                | none => scanLoopF d cfg q fuel q.length .dqd dqTag
                | some p => scanLoopF d cfg q fuel (p + dqTag.length) .text []

/-- The Plain-state placeholder occurrences of a whole template. -/
def scanTemplate (d : Dialect) (cfg : PCfg) (q : List Char) : Option (List Ph) :=
  scanLoopF d cfg q (q.length + 1) 0 .text []

/-- Row-major resolution of every row of a `:name{...}` block, starting at
record index `r` (the specification-side counterpart of the rows loop). -/
def resolveRowsFrom (rows : List Val) (cols : List String) (name : String) (r : Nat) :
    Except PErr (List (List Val)) :=
  match rows with
  | [] => .ok []
  | row :: rest => do
      let vs ← resolveRow row cols name r
      let rest' ← resolveRowsFrom rest cols name (r + 1)
      .ok (vs :: rest')

/-- The argument-list contribution of one placeholder together with the
ordinal advance, extracted from parse's per-placeholder branches
(parser.go): lookup, ambiguity bubbling, scalar-wrapper / Valuer /
byte-blob / slice / default classification, rows resolution, and the
MaxParams check in the same order as the source. Returns the new ordinal
count, the appended arguments, and the appended ordinals. -/
def phStep (lookup : String → Option Val) (rowsLookup : String → Option (List Val))
    (cfg : PCfg) (ph : Ph) (n : Nat) : Except PErr (Nat × List Val × List Nat) :=
  match ph with
  | .scalar name =>
      match lookup name with
      | none => .error (.paramMissing name)
      | some v =>
          match v with
          | .vambig a => .error (.fieldAmbiguous a)
          | .vscalar w => do
              let _ ← ensureAdd cfg n 1
              .ok (n + 1, [w], [n + 1])
          | .vvaluer w => do
              let _ ← ensureAdd cfg n 1
              .ok (n + 1, [.vvaluer w], [n + 1])
          | .vbytes bs => do
              let _ ← ensureAdd cfg n 1
              .ok (n + 1, [.vbytes bs], [n + 1])
          | .vlist vs =>
              if vs.isEmpty then .error (.sliceEmpty name)
              else do
                let _ ← ensureAdd cfg n vs.length
                .ok (n + vs.length, vs, List.range' (n + 1) vs.length)
          | other => do
              let _ ← ensureAdd cfg n 1
              .ok (n + 1, [other], [n + 1])
  | .rowsB name cols =>
      match rowsLookup name with
      | none => .error (.paramMissing name)
      | some rows =>
          if rows.isEmpty then .error (.rowsEmpty name)
          else do
            let _ ← ensureAdd cfg n (rows.length * cols.length)
            let valss ← resolveRowsFrom rows cols name 0
            .ok (n + valss.flatten.length, valss.flatten, List.range' (n + 1) valss.flatten.length)

/-- Folding `phStep` over a placeholder list: the cumulative arguments and
ordinals contributed by the placeholders of a template. -/
def processPhs (lookup : String → Option Val) (rowsLookup : String → Option (List Val))
    (cfg : PCfg) : List Ph → Nat → Except PErr (Nat × List Val × List Nat)
  | [], n => .ok (n, [], [])
  | ph :: rest, n => do
      let s1 ← phStep lookup rowsLookup cfg ph n
      let s2 ← processPhs lookup rowsLookup cfg rest s1.1
      .ok (s2.1, s1.2.1 ++ s2.2.1, s1.2.2 ++ s2.2.2)

/-- colKind (mapper): the per-column scan strategy. -/
inductive ColKind where
  | sink
  | scanner
  | ptrK
  | value
deriving DecidableEq, Repr

/-- scanPlan (mapper, immutable part): per-column strategy and flattened
field path, plus the indices of the pointer columns (`ptrIdx`). The
source also stores the pointer field types to allocate the reusable
`**T` holders; the model represents a holder directly as `Option Val`
(none = nil `*T`), so the types are not needed. -/
structure ScanPlanL where
  kinds : List ColKind
  fPath : List (List Nat)
  ptrIdx : List Nat
deriving Repr

/-- Indexing a struct's declared field list. -/
def fieldsGet : Fields → Nat → Option (FMeta × GoType)
  | .nil, _ => none
  | .cons m t _, 0 => some (m, t)
  | .cons _ _ rest, n + 1 => fieldsGet rest n

/-- Strip all pointers off a type (the normalization loops of
buildScanPlan / canonicalStructType / fieldIndexMap). -/
def stripPtrs : GoType → GoType
  | .ptrT t => stripPtrs t
  | t => t

/-- `reflect.Type.FieldByIndex`: walk a nested field path on a struct
type, dereferencing a pointer-to-struct between steps. `none` models the
source's panic on a structurally invalid path (unreachable for paths
produced by fieldIndexMap). -/
def fieldTypByIndex : GoType → List Nat → Option GoType
  | _, [] => none
  | t, [i] =>
      match t with
      | .structT _ fs => (fieldsGet fs i).map (·.2)
      | _ => none
  | t, i :: rest =>
      match t with
      | .structT _ fs =>
          match fieldsGet fs i with
          | none => none
          | some (_, ft) =>
              let ft' := match ft with
                         | .ptrT (.structT nm fs2) => GoType.structT nm fs2
                         | other => other
              fieldTypByIndex ft' rest
      | _ => none

/-- `fieldTypByIndex` with a junk default standing in for the source's
panic (unreachable on fieldIndexMap-produced paths). -/
def fieldTypByIndexD (t : GoType) (path : List Nat) : GoType :=
  (fieldTypByIndex t path).getD (.prim "invalid")

/-- Whether a leaf field's type is a `*T` that itself implements
`sql.Scanner` (the `ft.Kind() == reflect.Pointer && ft.Implements(...)`
test of scanOneWithPlan / scanAll). -/
def isPtrScanner : GoType → Bool
  | .ptrT (.scannerT _) => true
  | _ => false

mutual
/-- The Go zero value of a type (`reflect.New(t).Elem()`): nil for
pointers, a zero-filled struct for structs, an opaque zero (`vzero`) for
leaf types. -/
def zeroVal : GoType → Val
  | .ptrT t => .vptr none
  | .structT nm fs => .vstructV (.structT nm fs) (zeroFields fs)
  | t => .vzero t

/-- Zero values of a struct's fields, in declaration order. -/
def zeroFields : Fields → List Val
  | .nil => []
  | .cons _ ft rest => zeroVal ft :: zeroFields rest
end

/-- setFieldByIndex / fieldByIndexAlloc (mapper): write `value` at `path`
inside a struct value, allocating (as the type's zero value) any nil
intermediate pointer on the way. `none` models the source's panic on a
structurally invalid path. -/
def setFieldByIndexV : Val → List Nat → Val → Option Val
  | .vstructV t fs, [i], value =>
      if i < fs.length then some (.vstructV t (fs.set i value)) else none
  | .vstructV t fs, i :: rest, value =>
      match fs.get? i with
      | none => none
      | some f =>
          let elemZero := match fieldsGet (match t with
                                          | .structT _ fl => fl
                                          | _ => .nil) i with
                          | some (_, .ptrT inner) => zeroVal inner
                          | _ => .null
          match f with
          | .vptr none =>
              (setFieldByIndexV elemZero rest value).map
                (fun w => .vstructV t (fs.set i (.vptr (some w))))
          | .vptr (some w0) =>
              (setFieldByIndexV w0 rest value).map
                (fun w => .vstructV t (fs.set i (.vptr (some w))))
          | fv =>
              (setFieldByIndexV fv rest value).map
                (fun w => .vstructV t (fs.set i w))
  | _, _, _ => none

/-- Read the value stored at a field path, dereferencing non-nil
pointers on the way (used only to state the scan theorems). -/
def readPath : Val → List Nat → Option Val
  | v, [] => some v
  | .vptr (some w), path => readPath w path
  | .vstructV _ fs, i :: rest =>
      match h : fs.get? i with
      | some f => readPath f rest
      | none => none
  | _, _ => none
termination_by v _ => sizeOf v
decreasing_by
  · simp_wf
    omega
  · simp_wf
    have := List.sizeOf_lt_of_mem (List.get?_mem h)
    omega

/-- Scan-time errors: a plan-build failure, the `database/sql` error of
converting NULL into a plain (non-pointer, non-Scanner) destination, or a
structural mismatch standing in for a reflection panic. -/
inductive ScanErr where
  | plan (e : PErr)
  | nullIntoValue (i : Nat)
  | shape
deriving DecidableEq, Repr

/-- Per-column classification of buildScanPlan (mapper): unmapped column →
sink; ambiguous → FieldAmbiguous error; Scanner-capable leaf → scanner;
pointer leaf → ptrK; otherwise a direct value. -/
def classifyCol (dstT : GoType) (fm : FMap) (col : String) :
    Except PErr (ColKind × List Nat) :=
  match fmLookup fm col with
  | none => .ok (.sink, [])
  | some fi =>
      if fi.ambiguous then .error (.fieldAmbiguous col)
      else
        let ft := fieldTypByIndexD dstT fi.index
        if ptrToImplementsScanner ft || typeImplementsScanner ft then .ok (.scanner, fi.index)
        else
          match ft with
          | .ptrT _ => .ok (.ptrK, fi.index)
          | _ => .ok (.value, fi.index)

/-- buildScanPlan (mapper): classify every column against the destination
struct type's field index map. -/
def buildScanPlan (cols : List String) (dstT0 : GoType) : Except PErr ScanPlanL := do
  let dstT := stripPtrs dstT0
  let fm := fieldIndexMap dstT
  let entries ← mapME (classifyCol dstT fm) cols
  .ok { kinds := entries.map (·.1),
        fPath := entries.map (·.2),
        ptrIdx := (List.range entries.length).filter
          (fun i => match entries.get? i with
                    | some (.ptrK, _) => true
                    | _ => false) }

/-- The mutable per-scan buffers (scanState) plus the ghost trace of raw
values handed to a pointer-Scanner leaf's `Scan` method. -/
structure ScanSt where
  dst : Val
  holders : List (Option Val)
  sinks : List Val
  trace : List Val

/-- The holder reset of the per-row target preparation (`h.Elem().SetZero()`
for every ckPtr column): each reusable `*T` holder is emptied before the
row is fetched. -/
def resetHolders (plan : ScanPlanL) (holders : List (Option Val)) : List (Option Val) :=
  plan.ptrIdx.foldl (fun hs i => hs.set i none) holders

/-- The effect of `rows.Scan` on the target of column `i` (target choice
per scanOneWithPlan / scanAll of the revised mapper, conversion semantics
per `database/sql`): a sink column captures the raw value; a Scanner
column whose leaf is `*T`-with-Scanner captures the raw value into its
sink for post-processing, while a direct Scanner leaf is converted in
place; a pointer column sets its reusable holder to nil on NULL and to
the value otherwise; a plain value column errors on NULL and is assigned
in place otherwise. -/
def scanColAssign (conv : Val → Val) (dstT : GoType) (plan : ScanPlanL)
    (raw : List Val) (i : Nat) (st : ScanSt) : Except ScanErr ScanSt :=
  let rv := raw.getD i .null
  match plan.kinds.get? i with
  | some .sink => .ok { st with sinks := st.sinks.set i rv }
  | some .scanner =>
      let p := plan.fPath.getD i []
      if isPtrScanner (fieldTypByIndexD dstT p) then
        .ok { st with sinks := st.sinks.set i rv }
      else
        match setFieldByIndexV st.dst p (conv rv) with
        | some d' => .ok { st with dst := d' }
        | none => .error .shape
  | some .ptrK =>
      let hv : Option Val := match rv with
                             | .null => none
                             | w => some w
      .ok { st with holders := st.holders.set i hv }
  | some .value =>
      match rv with
      | .null => .error (.nullIntoValue i)
      | w =>
          match setFieldByIndexV st.dst (plan.fPath.getD i []) w with
          | some d' => .ok { st with dst := d' }
          | none => .error .shape
  | none => .error .shape

/-- The post-fetch pointer copy-back (`for _, i := range plan.ptrIdx`):
each pointer column's leaf is overwritten with its holder's current `*T`
(nil included). -/
def applyPtrCopies (plan : ScanPlanL) (dst : Val) (holders : List (Option Val)) : Option Val :=
  plan.ptrIdx.foldlM
    (fun d i => setFieldByIndexV d (plan.fPath.getD i [])
        (match holders.getD i none with
         | none => .vptr none
         | some v => .vptr (some v)))
    dst

/-- The columns collected into `ptrScannerIdx` during target preparation:
Scanner columns whose leaf type is a pointer implementing Scanner. -/
def ptrScannerIdx (dstT : GoType) (plan : ScanPlanL) : List Nat :=
  (List.range plan.kinds.length).filter fun i =>
    plan.kinds.get? i = some ColKind.scanner ∧
      isPtrScanner (fieldTypByIndexD dstT (plan.fPath.getD i []))

/-- The post-fetch pointer-Scanner pass (scanOneWithPlan / scanAll of the
revised mapper): read the captured raw value from the sink; on NULL set
the leaf to a nil pointer WITHOUT invoking the conversion; otherwise
allocate a fresh `*T`, invoke its `Scan` (the abstract conversion) on the
raw value — recorded in the ghost trace — and store the result. -/
def applyPtrScanners (conv : Val → Val) (plan : ScanPlanL) :
    List Nat → Val → List Val → List Val → Except ScanErr (Val × List Val)
  | [], dst, _, tr => .ok (dst, tr)
  | i :: rest, dst, sinks, tr =>
      let rawv := sinks.getD i .null
      match rawv with
      | .null =>
          match setFieldByIndexV dst (plan.fPath.getD i []) (.vptr none) with
          | some d' => applyPtrScanners conv plan rest d' sinks tr
          | none => .error .shape
      | w =>
          match setFieldByIndexV dst (plan.fPath.getD i []) (.vptr (some (conv w))) with
          | some d' => applyPtrScanners conv plan rest d' sinks (tr ++ [w])
          | none => .error .shape

/-- One row's scan (the shared body of scanOneWithPlan and of scanAll's
per-row loop in the revised mapper): reset the reusable holders, apply
the per-column `rows.Scan` assignments in column order, then the pointer
copy-backs, then the pointer-Scanner post-processing. Returns the
populated destination, the carried-over holders and sinks, and the ghost
conversion trace. -/
def scanRowM (conv : Val → Val) (dstT : GoType) (plan : ScanPlanL) (raw : List Val)
    (dst0 : Val) (holders0 : List (Option Val)) (sinks0 : List Val) :
    Except ScanErr (Val × List (Option Val) × List Val × List Val) := do
  let holders1 := resetHolders plan holders0
  let st ← (List.range plan.kinds.length).foldlM
      (fun s i => scanColAssign conv dstT plan raw i s)
      (ScanSt.mk dst0 holders1 sinks0 [])
  let dst1 ← match applyPtrCopies plan st.dst st.holders with
             | some dv => Except.ok dv
             | none => Except.error ScanErr.shape
  let (dst2, tr) ← applyPtrScanners conv plan (ptrScannerIdx dstT plan) dst1 st.sinks []
  .ok (dst2, st.holders, st.sinks, tr)

/-- scanOneWithPlan (revised mapper, unnamed/part_001): build (or fetch)
the plan, allocate fresh per-scan state, scan the single row. The second
component is the ghost trace of raw values the pointer-Scanner leaves
were converted from. -/
def scanOneWithPlanM (conv : Val → Val) (cols : List String) (dstT : GoType)
    (dst : Val) (raw : List Val) : Except ScanErr (Val × List Val) := do
  let plan ← (buildScanPlan cols dstT).mapError ScanErr.plan
  let r ← scanRowM conv (stripPtrs dstT) plan raw dst
      (List.replicate cols.length none) (List.replicate cols.length Val.null)
  .ok (r.1, r.2.2.2)

/-- The row loop of scanAll's `[]T` branch (revised mapper,
unnamed/part_001): one fresh zero element per row, the same reusable
holders and sinks across all rows. -/
def scanAllLoop (conv : Val → Val) (structT : GoType) (plan : ScanPlanL) :
    List (List Val) → List (Option Val) → List Val → List Val →
    Except ScanErr (List Val)
  | [], _, _, acc => .ok acc
  | raw :: rest, holders, sinks, acc => do
      let r ← scanRowM conv structT plan raw (zeroVal structT) holders sinks
      scanAllLoop conv structT plan rest r.2.1 r.2.2.1 (acc ++ [r.1])

/-- scanAll for a `[]T` destination of struct elements (revised mapper,
unnamed/part_001): build one plan and one set of reusable buffers, then
scan every row into a fresh zero element. -/
def scanAllStructsM (conv : Val → Val) (cols : List String) (structT : GoType)
    (rawRows : List (List Val)) : Except ScanErr (List Val) := do
  let plan ← (buildScanPlan cols structT).mapError ScanErr.plan
  scanAllLoop conv structT plan rawRows
    (List.replicate cols.length none) (List.replicate cols.length Val.null) []

/-! ### Helper lemmas: emission loops -/

theorem emitSeq_spec (d : Dialect) :
    ∀ (vs : List Val) (first : Bool) (n : Nat) (buf : List Char)
      (args : List Val) (ords : List Nat),
      ∃ b, emitSeq d vs first n buf args ords =
        (n + vs.length, buf ++ b, args ++ vs, ords ++ List.range' (n + 1) vs.length) := by
  intro vs
  induction vs with
  | nil =>
      intro first n buf args ords
      exact ⟨[], by simp [emitSeq]⟩
  | cons v rest ih =>
      intro first n buf args ords
      obtain ⟨b, hb⟩ := ih false (n + 1)
        ((if first then buf else buf ++ [',', ' ']) ++ phTok d (n + 1))
        (args ++ [v]) (ords ++ [n + 1])
      refine ⟨(if first then [] else [',', ' ']) ++ phTok d (n + 1) ++ b, ?_⟩
      rw [emitSeq, hb]
      cases first <;> (simp [List.range'_succ, List.append_assoc]; try omega)

theorem emitRowsLoop_err (d : Dialect) (cols : List String) (name : String) :
    ∀ (rows : List Val) (r n : Nat) (buf : List Char) (args : List Val)
      (ords : List Nat) (e : PErr),
      resolveRowsFrom rows cols name r = .error e →
      emitRowsLoop d cols name rows r n buf args ords = .error e := by
  intro rows
  induction rows with
  | nil => intro r n buf args ords e h; simp [resolveRowsFrom] at h
  | cons row rest ih =>
      intro r n buf args ords e h
      rw [resolveRowsFrom] at h
      cases hrr : resolveRow row cols name r with
      | error e' =>
          rw [hrr] at h
          simp only [Bind.bind, Except.bind] at h
          cases h
          rw [emitRowsLoop, hrr]
      | ok vs =>
          rw [hrr] at h
          simp only [Bind.bind, Except.bind] at h
          cases hrest : resolveRowsFrom rest cols name (r + 1) with
          | error e' =>
              rw [hrest] at h
              simp only [Bind.bind, Except.bind] at h
              cases h
              rw [emitRowsLoop, hrr]
              dsimp only
              obtain ⟨b, hb⟩ := emitSeq_spec d vs true n
                ((if r = 0 then buf else buf ++ [',', ' ']) ++ ['(']) args ords
              rw [hb]
              exact ih (r + 1) _ _ _ _ e hrest
          | ok valss =>
              rw [hrest] at h
              simp at h

theorem range'_glue (s m n : Nat) :
    List.range' s m ++ List.range' (s + m) n = List.range' s (m + n) := by
  have h := List.range'_append s m n 1
  simp only [Nat.one_mul] at h
  rw [h, Nat.add_comm]

theorem emitRowsLoop_ok (d : Dialect) (cols : List String) (name : String) :
    ∀ (rows : List Val) (r n : Nat) (buf : List Char) (args : List Val)
      (ords : List Nat) (valss : List (List Val)),
      resolveRowsFrom rows cols name r = .ok valss →
      ∃ b, emitRowsLoop d cols name rows r n buf args ords =
        .ok (n + valss.flatten.length, buf ++ b, args ++ valss.flatten,
             ords ++ List.range' (n + 1) valss.flatten.length) := by
  intro rows
  induction rows with
  | nil =>
      intro r n buf args ords valss h
      simp [resolveRowsFrom] at h
      cases h
      exact ⟨[], by simp [emitRowsLoop]⟩
  | cons row rest ih =>
      intro r n buf args ords valss h
      rw [resolveRowsFrom] at h
      cases hrr : resolveRow row cols name r with
      | error e' => rw [hrr] at h; simp only [Bind.bind, Except.bind] at h; cases h
      | ok vs =>
          rw [hrr] at h
          simp only [Bind.bind, Except.bind] at h
          cases hrest : resolveRowsFrom rest cols name (r + 1) with
          | error e' => rw [hrest] at h; cases h
          | ok valss' =>
              rw [hrest] at h
              simp only [Except.ok.injEq] at h
              cases h
              rw [emitRowsLoop, hrr]
              dsimp only
              obtain ⟨b1, hb1⟩ := emitSeq_spec d vs true n
                ((if r = 0 then buf else buf ++ [',', ' ']) ++ ['(']) args ords
              rw [hb1]
              obtain ⟨b2, hb2⟩ := ih (r + 1) (n + vs.length)
                ((if r = 0 then buf else buf ++ [',', ' ']) ++ ['('] ++ b1 ++ [')'])
                (args ++ vs) (ords ++ List.range' (n + 1) vs.length) valss' hrest
              rw [hb2]
              refine ⟨(if r = 0 then [] else [',', ' ']) ++ ['('] ++ b1 ++ [')'] ++ b2, ?_⟩
              have hr : List.range' (n + 1) vs.length ++
                  List.range' (n + vs.length + 1) valss'.flatten.length =
                  List.range' (n + 1) (vs.length + valss'.flatten.length) := by
                have := range'_glue (n + 1) vs.length valss'.flatten.length
                rw [show n + 1 + vs.length = n + vs.length + 1 by omega] at this
                exact this
              simp only [List.flatten_cons, List.length_append, List.append_assoc, hr,
                Prod.mk.injEq, Except.ok.injEq]
              refine ⟨by omega, ?_, trivial⟩
              cases hrz : decide (r = 0) <;> simp_all

/-! ### The refinement of the parser loop by the placeholder fold -/

/-- The refinement goal at one loop state: if the structural scanner
recognizes `phs` from here, then the parser loop from here fails exactly
when the placeholder fold fails (with the same error), and on success
appends exactly the fold's arguments and ordinals (plus some rendered
text) to its accumulators. -/
def RefGoal (d : Dialect) (cfg : PCfg) (lookup : String → Option Val)
    (rl : String → Option (List Val)) (q : List Char) (fuel i : Nat) (st : PState)
    (tag : List Char) (n : Nat) (buf : List Char) (args : List Val) (ords : List Nat)
    (phs : List Ph) : Prop :=
  (∀ e, processPhs lookup rl cfg phs n = .error e →
      parseLoopF d cfg lookup rl q fuel i st tag n buf args ords = .error e) ∧
  (∀ n' a o, processPhs lookup rl cfg phs n = .ok (n', a, o) →
      ∃ b, parseLoopF d cfg lookup rl q fuel i st tag n buf args ords =
        .ok (buf ++ b, args ++ a, ords ++ o))

theorem refGoal_shift {d : Dialect} {cfg : PCfg} {lookup : String → Option Val}
    {rl : String → Option (List Val)} {q : List Char} {fuel i' : Nat} {st' : PState}
    {tag' : List Char} {n : Nat} {buf : List Char} {cs : List Char} {args : List Val}
    {ords : List Nat} {phs : List Ph}
    (h : RefGoal d cfg lookup rl q fuel i' st' tag' n (buf ++ cs) args ords phs) :
    (∀ e, processPhs lookup rl cfg phs n = .error e →
        parseLoopF d cfg lookup rl q fuel i' st' tag' n (buf ++ cs) args ords = .error e) ∧
    (∀ n' a o, processPhs lookup rl cfg phs n = .ok (n', a, o) →
        ∃ b, parseLoopF d cfg lookup rl q fuel i' st' tag' n (buf ++ cs) args ords =
          .ok (buf ++ b, args ++ a, ords ++ o)) := by
  refine ⟨h.1, fun n' a o ho => ?_⟩
  obtain ⟨b', hb⟩ := h.2 n' a o ho
  exact ⟨cs ++ b', by rw [hb, List.append_assoc]⟩

theorem refGoal_emit {d : Dialect} {cfg : PCfg} {lookup : String → Option Val}
    {rl : String → Option (List Val)} {q : List Char} {fuel k : Nat} {st' : PState}
    {tag' : List Char} {ph : Ph} {phs' : List Ph} {n n1 : Nat} {buf b1 : List Char}
    {args F : List Val} {ords : List Nat} {o1 : List Nat}
    (hstep : phStep lookup rl cfg ph n = .ok (n1, F, o1))
    (h : RefGoal d cfg lookup rl q fuel k st' tag' n1 (buf ++ b1) (args ++ F) (ords ++ o1) phs') :
    (∀ e, processPhs lookup rl cfg (ph :: phs') n = .error e →
        parseLoopF d cfg lookup rl q fuel k st' tag' n1 (buf ++ b1) (args ++ F) (ords ++ o1) = .error e) ∧
    (∀ n' a o, processPhs lookup rl cfg (ph :: phs') n = .ok (n', a, o) →
        ∃ b, parseLoopF d cfg lookup rl q fuel k st' tag' n1 (buf ++ b1) (args ++ F) (ords ++ o1) =
          .ok (buf ++ b, args ++ a, ords ++ o)) := by
  constructor
  · intro e he
    rw [processPhs, hstep] at he
    simp only [Bind.bind, Except.bind] at he
    cases hrec : processPhs lookup rl cfg phs' n1 with
    | error e2 =>
        rw [hrec] at he
        cases he
        exact h.1 _ hrec
    | ok s2 => rw [hrec] at he; cases he
  · intro n' a o ho
    rw [processPhs, hstep] at ho
    simp only [Bind.bind, Except.bind] at ho
    cases hrec : processPhs lookup rl cfg phs' n1 with
    | error e2 => rw [hrec] at ho; cases ho
    | ok s2 =>
        rw [hrec] at ho
        cases ho
        obtain ⟨b', hb⟩ := h.2 s2.1 s2.2.1 s2.2.2 (by rw [hrec])
        refine ⟨b1 ++ b', ?_⟩
        rw [hb]
        simp [List.append_assoc]

theorem refGoal_errCase {lookup : String → Option Val} {rl : String → Option (List Val)}
    {cfg : PCfg} {ph : Ph} {n : Nat} {e0 : PErr} (phs' : List Ph)
    (B : List Char) (A : List Val) (O : List Nat)
    (hstep : phStep lookup rl cfg ph n = .error e0) :
    (∀ e, processPhs lookup rl cfg (ph :: phs') n = .error e →
        (Except.error e0 : Except PErr (List Char × List Val × List Nat)) = .error e) ∧
    (∀ (n' : Nat) (a : List Val) (o : List Nat),
        processPhs lookup rl cfg (ph :: phs') n = .ok (n', a, o) →
        ∃ b, (Except.error e0 : Except PErr (List Char × List Val × List Nat)) =
          .ok (B ++ b, A ++ a, O ++ o)) := by
  constructor
  · intro e he
    rw [processPhs, hstep] at he
    simp only [Bind.bind, Except.bind] at he
    cases he
    rfl
  · intro n' a o ho
    rw [processPhs, hstep] at ho
    simp only [Bind.bind, Except.bind] at ho
    cases ho

/-- The refinement theorem: wherever the structural scanner recognizes the
placeholder list `phs`, the parser loop errs exactly when the placeholder
fold errs (same error value), and on success extends its accumulators with
exactly the fold's arguments and ordinals. -/
theorem parseLoop_refines (d : Dialect) (cfg : PCfg) (lookup : String → Option Val)
    (rl : String → Option (List Val)) (q : List Char) :
    ∀ (fuel i : Nat) (st : PState) (tag : List Char) (n : Nat) (buf : List Char)
      (args : List Val) (ords : List Nat) (phs : List Ph),
      scanLoopF d cfg q fuel i st tag = some phs →
      RefGoal d cfg lookup rl q fuel i st tag n buf args ords phs := by
  intro fuel
  induction fuel with
  | zero =>
      intro i st tag n buf args ords phs h
      simp only [scanLoopF] at h
      cases h
  | succ fuel ih =>
      intro i st tag n buf args ords phs h
      simp only [scanLoopF] at h
      unfold RefGoal
      simp only [parseLoopF]
      cases hq : q.get? i with
      | none =>
          rw [hq] at h
          dsimp only at h
          cases h
          dsimp only
          constructor
          · intro e he; simp [processPhs] at he
          · intro n' a o ho
            simp only [processPhs, Except.ok.injEq] at ho
            obtain ⟨rfl, rfl, rfl⟩ := ho
            exact ⟨[], by simp⟩
      | some c =>
          rw [hq] at h
          dsimp only
          cases st with
          | text =>
              dsimp only at h ⊢
              by_cases h1 : c = '-' ∧ q.get? (i + 1) = some '-'
              · simp only [if_pos h1] at h ⊢
                exact refGoal_shift (ih _ _ _ _ _ _ _ _ h)
              simp only [if_neg h1] at h ⊢
              by_cases h2 : c = '#' ∧ d = .mysql
              · simp only [if_pos h2] at h ⊢
                exact refGoal_shift (ih _ _ _ _ _ _ _ _ h)
              simp only [if_neg h2] at h ⊢
              by_cases h3 : c = '/' ∧ q.get? (i + 1) = some '*'
              · simp only [if_pos h3] at h ⊢
                exact refGoal_shift (ih _ _ _ _ _ _ _ _ h)
              simp only [if_neg h3] at h ⊢
              by_cases h4 : c = '\''
              · simp only [if_pos h4] at h ⊢
                exact refGoal_shift (ih _ _ _ _ _ _ _ _ h)
              simp only [if_neg h4] at h ⊢
              by_cases h5 : c = '"'
              · simp only [if_pos h5] at h ⊢
                exact refGoal_shift (ih _ _ _ _ _ _ _ _ h)
              simp only [if_neg h5] at h ⊢
              by_cases h6 : c = Char.ofNat 96 ∧ (d = .mysql ∨ d = .sqlite)
              · simp only [if_pos h6] at h ⊢
                exact refGoal_shift (ih _ _ _ _ _ _ _ _ h)
              simp only [if_neg h6] at h ⊢
              by_cases h7 : c = '[' ∧ d = .sqlserver
              · simp only [if_pos h7] at h ⊢
                exact refGoal_shift (ih _ _ _ _ _ _ _ _ h)
              simp only [if_neg h7] at h ⊢
              by_cases h8 : c = '$'
              · simp only [if_pos h8] at h ⊢
                cases hdt : readDollarTag q i with
                | some tag2 =>
                    rw [hdt] at h
                    dsimp only
                    exact refGoal_shift (ih _ _ _ _ _ _ _ _ h)
                | none =>
                    rw [hdt] at h
                    dsimp only
                    exact refGoal_shift (ih _ _ _ _ _ _ _ _ h)
              simp only [if_neg h8] at h ⊢
              by_cases h9 : c = ':' ∧ placeholderStart q i
              · simp only [if_pos h9] at h ⊢
                by_cases hnt : cfg.maxNameLen > 0 ∧
                    i + 1 + 1 + alnumRun (q.drop (i + 1 + 1)) - (i + 1) > cfg.maxNameLen
                · simp only [if_pos hnt] at h
                  simp at h
                simp only [if_neg hnt] at h ⊢
                by_cases hbr : q.get? (i + 1 + 1 + alnumRun (q.drop (i + 1 + 1))) = some '{'
                · -- rows block
                  simp only [if_pos hbr] at h ⊢
                  cases hrc : readCols q (i + 1 + 1 + alnumRun (q.drop (i + 1 + 1))) with
                  | none => simp [hrc] at h
                  | some p =>
                      obtain ⟨k2, cols⟩ := p
                      rw [hrc] at h
                      dsimp only at h ⊢
                      by_cases hce : cols.isEmpty
                      · simp only [if_pos hce] at h; simp at h
                      simp only [if_neg hce] at h ⊢
                      cases hm : scanLoopF d cfg q fuel k2 .text tag with
                      | none => simp [hm] at h
                      | some phs' =>
                          rw [hm] at h
                          simp only [Option.map_some'] at h
                          cases h
                          cases hrl : rl (⟨listSlice q (i + 1)
                              (i + 1 + 1 + alnumRun (q.drop (i + 1 + 1)))⟩ : String) with
                          | none =>
                              dsimp only
                              exact refGoal_errCase phs' _ _ _ (by simp [phStep, hrl])
                          | some rows =>
                              dsimp only
                              by_cases hre : rows.isEmpty
                              · simp only [if_pos hre]
                                exact refGoal_errCase phs' _ _ _ (by simp [phStep, hrl, hre])
                              simp only [if_neg hre]
                              cases hen : ensureAdd cfg n (rows.length * cols.length) with
                              | error e0 =>
                                  dsimp only
                                  exact refGoal_errCase phs' _ _ _ (by simp [phStep, hrl, hre, hen, Bind.bind, Except.bind])
                              | ok u =>
                                  cases hres : resolveRowsFrom rows cols
                                      (⟨listSlice q (i + 1)
                                        (i + 1 + 1 + alnumRun (q.drop (i + 1 + 1)))⟩ : String) 0 with
                                  | error e0 =>
                                      have hemit := emitRowsLoop_err d cols _ rows 0 n buf args ords e0 hres
                                      dsimp only
                                      simp only [hemit]
                                      exact refGoal_errCase phs' _ _ _ (by simp [phStep, hrl, hre, hen, hres, Bind.bind, Except.bind])
                                  | ok valss =>
                                      obtain ⟨b1, hb1⟩ := emitRowsLoop_ok d cols _ rows 0 n buf args ords valss hres
                                      dsimp only
                                      simp only [hb1]
                                      exact refGoal_emit
                                        (show phStep lookup rl cfg _ n = .ok _ by
                                          simp [phStep, hrl, hre, hen, hres, Bind.bind, Except.bind])
                                        (ih _ _ _ _ _ _ _ _ hm)
                · -- scalar placeholder
                  simp only [if_neg hbr] at h ⊢
                  cases hm : scanLoopF d cfg q fuel
                      (i + 1 + 1 + alnumRun (q.drop (i + 1 + 1))) .text tag with
                  | none => simp [hm] at h
                  | some phs' =>
                      rw [hm] at h
                      simp only [Option.map_some'] at h
                      cases h
                      cases hlk : lookup (⟨listSlice q (i + 1)
                          (i + 1 + 1 + alnumRun (q.drop (i + 1 + 1)))⟩ : String) with
                      | none =>
                          dsimp only
                          exact refGoal_errCase phs' _ _ _ (by simp [phStep, hlk])
                      | some v =>
                          dsimp only
                          cases v with
                          | vambig a2 =>
                              exact refGoal_errCase phs' _ _ _ (by simp [phStep, hlk])
                          | vlist vs =>
                              by_cases hvs : vs.isEmpty
                              · simp only [if_pos hvs]
                                exact refGoal_errCase phs' _ _ _ (by simp [phStep, hlk, hvs])
                              simp only [if_neg hvs]
                              cases hen : ensureAdd cfg n vs.length with
                              | error e0 =>
                                  dsimp only
                                  exact refGoal_errCase phs' _ _ _ (by simp [phStep, hlk, hvs, hen, Bind.bind, Except.bind])
                              | ok u =>
                                  obtain ⟨b1, hb1⟩ := emitSeq_spec d vs true n buf args ords
                                  dsimp only
                                  simp only [hb1]
                                  exact refGoal_emit
                                    (show phStep lookup rl cfg _ n = .ok _ by
                                      simp [phStep, hlk, hvs, hen, Bind.bind, Except.bind])
                                    (ih _ _ _ _ _ _ _ _ hm)
                          | vscalar w =>
                              cases hen : ensureAdd cfg n 1 with
                              | error e0 =>
                                  dsimp only
                                  exact refGoal_errCase phs' _ _ _ (by simp [phStep, hlk, hen, Bind.bind, Except.bind])
                              | ok u =>
                                  dsimp only
                                  exact refGoal_emit
                                    (show phStep lookup rl cfg _ n = .ok (n + 1, [w], [n + 1]) by
                                      simp [phStep, hlk, hen, Bind.bind, Except.bind])
                                    (ih _ _ _ _ _ _ _ _ hm)
                          | vvaluer w =>
                              cases hen : ensureAdd cfg n 1 with
                              | error e0 =>
                                  dsimp only
                                  exact refGoal_errCase phs' _ _ _ (by simp [phStep, hlk, hen, Bind.bind, Except.bind])
                              | ok u =>
                                  dsimp only
                                  exact refGoal_emit
                                    (show phStep lookup rl cfg _ n = .ok (n + 1, [.vvaluer w], [n + 1]) by
                                      simp [phStep, hlk, hen, Bind.bind, Except.bind])
                                    (ih _ _ _ _ _ _ _ _ hm)
                          | vbytes bs =>
                              cases hen : ensureAdd cfg n 1 with
                              | error e0 =>
                                  dsimp only
                                  exact refGoal_errCase phs' _ _ _ (by simp [phStep, hlk, hen, Bind.bind, Except.bind])
                              | ok u =>
                                  dsimp only
                                  exact refGoal_emit
                                    (show phStep lookup rl cfg _ n = .ok (n + 1, [.vbytes bs], [n + 1]) by
                                      simp [phStep, hlk, hen, Bind.bind, Except.bind])
                                    (ih _ _ _ _ _ _ _ _ hm)
                          | null =>
                              cases hen : ensureAdd cfg n 1 with
                              | error e0 =>
                                  dsimp only
                                  exact refGoal_errCase phs' _ _ _ (by simp [phStep, hlk, hen, Bind.bind, Except.bind])
                              | ok u =>
                                  dsimp only
                                  exact refGoal_emit
                                    (show phStep lookup rl cfg _ n = .ok (n + 1, [.null], [n + 1]) by
                                      simp [phStep, hlk, hen, Bind.bind, Except.bind])
                                    (ih _ _ _ _ _ _ _ _ hm)
                          | vint m =>
                              cases hen : ensureAdd cfg n 1 with
                              | error e0 =>
                                  dsimp only
                                  exact refGoal_errCase phs' _ _ _ (by simp [phStep, hlk, hen, Bind.bind, Except.bind])
                              | ok u =>
                                  dsimp only
                                  exact refGoal_emit
                                    (show phStep lookup rl cfg _ n = .ok (n + 1, [.vint m], [n + 1]) by
                                      simp [phStep, hlk, hen, Bind.bind, Except.bind])
                                    (ih _ _ _ _ _ _ _ _ hm)
                          | vstr s =>
                              cases hen : ensureAdd cfg n 1 with
                              | error e0 =>
                                  dsimp only
                                  exact refGoal_errCase phs' _ _ _ (by simp [phStep, hlk, hen, Bind.bind, Except.bind])
                              | ok u =>
                                  dsimp only
                                  exact refGoal_emit
                                    (show phStep lookup rl cfg _ n = .ok (n + 1, [.vstr s], [n + 1]) by
                                      simp [phStep, hlk, hen, Bind.bind, Except.bind])
                                    (ih _ _ _ _ _ _ _ _ hm)
                          | vstructV t2 fs2 =>
                              cases hen : ensureAdd cfg n 1 with
                              | error e0 =>
                                  dsimp only
                                  exact refGoal_errCase phs' _ _ _ (by simp [phStep, hlk, hen, Bind.bind, Except.bind])
                              | ok u =>
                                  dsimp only
                                  exact refGoal_emit
                                    (show phStep lookup rl cfg _ n = .ok (n + 1, [.vstructV t2 fs2], [n + 1]) by
                                      simp [phStep, hlk, hen, Bind.bind, Except.bind])
                                    (ih _ _ _ _ _ _ _ _ hm)
                          | vptr pv =>
                              cases hen : ensureAdd cfg n 1 with
                              | error e0 =>
                                  dsimp only
                                  exact refGoal_errCase phs' _ _ _ (by simp [phStep, hlk, hen, Bind.bind, Except.bind])
                              | ok u =>
                                  dsimp only
                                  exact refGoal_emit
                                    (show phStep lookup rl cfg _ n = .ok (n + 1, [.vptr pv], [n + 1]) by
                                      simp [phStep, hlk, hen, Bind.bind, Except.bind])
                                    (ih _ _ _ _ _ _ _ _ hm)
                          | vmap es =>
                              cases hen : ensureAdd cfg n 1 with
                              | error e0 =>
                                  dsimp only
                                  exact refGoal_errCase phs' _ _ _ (by simp [phStep, hlk, hen, Bind.bind, Except.bind])
                              | ok u =>
                                  dsimp only
                                  exact refGoal_emit
                                    (show phStep lookup rl cfg _ n = .ok (n + 1, [.vmap es], [n + 1]) by
                                      simp [phStep, hlk, hen, Bind.bind, Except.bind])
                                    (ih _ _ _ _ _ _ _ _ hm)
                          | vzero tz =>
                              cases hen : ensureAdd cfg n 1 with
                              | error e0 =>
                                  dsimp only
                                  exact refGoal_errCase phs' _ _ _ (by simp [phStep, hlk, hen, Bind.bind, Except.bind])
                              | ok u =>
                                  dsimp only
                                  exact refGoal_emit
                                    (show phStep lookup rl cfg _ n = .ok (n + 1, [.vzero tz], [n + 1]) by
                                      simp [phStep, hlk, hen, Bind.bind, Except.bind])
                                    (ih _ _ _ _ _ _ _ _ hm)
              · simp only [if_neg h9] at h ⊢
                exact refGoal_shift (ih _ _ _ _ _ _ _ _ h)
          | sq =>
              dsimp only at h ⊢
              by_cases hb1 : c = '\\'
              · simp only [if_pos hb1] at h ⊢
                cases hq2 : q.get? (i + 1) with
                | some c2 =>
                    rw [hq2] at h
                    dsimp only
                    exact refGoal_shift (ih _ _ _ _ _ _ _ _ h)
                | none =>
                    rw [hq2] at h
                    dsimp only
                    exact refGoal_shift (ih _ _ _ _ _ _ _ _ h)
              simp only [if_neg hb1] at h ⊢
              by_cases hc1 : c = '\''
              · simp only [if_pos hc1] at h ⊢
                cases hq2 : q.get? (i + 1) with
                | some c2 =>
                    rw [hq2] at h
                    dsimp only
                    by_cases hc2 : c2 = '\''
                    · simp only [if_pos hc2] at h ⊢
                      exact refGoal_shift (ih _ _ _ _ _ _ _ _ h)
                    · simp only [if_neg hc2] at h ⊢
                      exact refGoal_shift (ih _ _ _ _ _ _ _ _ h)
                | none =>
                    rw [hq2] at h
                    dsimp only
                    exact refGoal_shift (ih _ _ _ _ _ _ _ _ h)
              simp only [if_neg hc1] at h ⊢
              exact refGoal_shift (ih _ _ _ _ _ _ _ _ h)
          | dq =>
              dsimp only at h ⊢
              by_cases hb1 : c = '\\'
              · simp only [if_pos hb1] at h ⊢
                cases hq2 : q.get? (i + 1) with
                | some c2 =>
                    rw [hq2] at h
                    dsimp only
                    exact refGoal_shift (ih _ _ _ _ _ _ _ _ h)
                | none =>
                    rw [hq2] at h
                    dsimp only
                    exact refGoal_shift (ih _ _ _ _ _ _ _ _ h)
              simp only [if_neg hb1] at h ⊢
              by_cases hc1 : c = '"'
              · simp only [if_pos hc1] at h ⊢
                cases hq2 : q.get? (i + 1) with
                | some c2 =>
                    rw [hq2] at h
                    dsimp only
                    by_cases hc2 : c2 = '"'
                    · simp only [if_pos hc2] at h ⊢
                      exact refGoal_shift (ih _ _ _ _ _ _ _ _ h)
                    · simp only [if_neg hc2] at h ⊢
                      exact refGoal_shift (ih _ _ _ _ _ _ _ _ h)
                | none =>
                    rw [hq2] at h
                    dsimp only
                    exact refGoal_shift (ih _ _ _ _ _ _ _ _ h)
              simp only [if_neg hc1] at h ⊢
              exact refGoal_shift (ih _ _ _ _ _ _ _ _ h)
          | bt =>
              dsimp only at h ⊢
              by_cases hc1 : c = Char.ofNat 96
              · simp only [if_pos hc1] at h ⊢
                cases hq2 : q.get? (i + 1) with
                | some c2 =>
                    rw [hq2] at h
                    dsimp only
                    by_cases hc2 : c2 = Char.ofNat 96
                    · simp only [if_pos hc2] at h ⊢
                      exact refGoal_shift (ih _ _ _ _ _ _ _ _ h)
                    · simp only [if_neg hc2] at h ⊢
                      exact refGoal_shift (ih _ _ _ _ _ _ _ _ h)
                | none =>
                    rw [hq2] at h
                    dsimp only
                    exact refGoal_shift (ih _ _ _ _ _ _ _ _ h)
              simp only [if_neg hc1] at h ⊢
              exact refGoal_shift (ih _ _ _ _ _ _ _ _ h)
          | br =>
              dsimp only at h ⊢
              by_cases hc1 : c = ']'
              · simp only [if_pos hc1] at h ⊢
                cases hq2 : q.get? (i + 1) with
                | some c2 =>
                    rw [hq2] at h
                    dsimp only
                    by_cases hc2 : c2 = ']'
                    · simp only [if_pos hc2] at h ⊢
                      exact refGoal_shift (ih _ _ _ _ _ _ _ _ h)
                    · simp only [if_neg hc2] at h ⊢
                      exact refGoal_shift (ih _ _ _ _ _ _ _ _ h)
                | none =>
                    rw [hq2] at h
                    dsimp only
                    exact refGoal_shift (ih _ _ _ _ _ _ _ _ h)
              simp only [if_neg hc1] at h ⊢
              exact refGoal_shift (ih _ _ _ _ _ _ _ _ h)
          | lc =>
              dsimp only at h ⊢
              by_cases hc1 : c = '\n' ∨ c = '\r'
              · simp only [if_pos hc1] at h ⊢
                exact refGoal_shift (ih _ _ _ _ _ _ _ _ h)
              · simp only [if_neg hc1] at h ⊢
                exact refGoal_shift (ih _ _ _ _ _ _ _ _ h)
          | bc =>
              dsimp only at h ⊢
              by_cases hc1 : c = '*' ∧ q.get? (i + 1) = some '/'
              · simp only [if_pos hc1] at h ⊢
                exact refGoal_shift (ih _ _ _ _ _ _ _ _ h)
              · simp only [if_neg hc1] at h ⊢
                exact refGoal_shift (ih _ _ _ _ _ _ _ _ h)
          | dqd =>
              dsimp only at h ⊢
              by_cases hc1 : tag.isEmpty
              · simp only [if_pos hc1] at h ⊢
                exact refGoal_shift (ih _ _ _ _ _ _ _ _ h)
              simp only [if_neg hc1] at h ⊢
              cases hfs : findSub q tag i with
              | none =>
                  rw [hfs] at h
                  dsimp only
                  exact refGoal_shift (ih _ _ _ _ _ _ _ _ h)
              | some p =>
                  rw [hfs] at h
                  dsimp only
                  simp only [List.append_assoc]
                  exact refGoal_shift (ih _ _ _ _ _ _ _ _ h)

/-! ### Termination: the fuel bound `q.length + 1` is never exhausted -/

theorem findSub_ge {q pat : List Char} {i p : Nat} (h : findSub q pat i = some p) :
    i ≤ p := by
  simp only [findSub, Option.map_eq_some'] at h
  obtain ⟨ofs, _, rfl⟩ := h
  omega

theorem readDollarTag_len {q : List Char} {i : Nat} {tag : List Char}
    (h : readDollarTag q i = some tag) : 2 ≤ tag.length := by
  simp only [readDollarTag] at h
  split at h
  · rename_i hget
    cases h
    have hlt : i + 1 + alnumRun (q.drop (i + 1)) < q.length := by
      by_contra hge
      rw [List.get?_eq_none.2 (by omega)] at hget
      cases hget
    simp only [listSlice, List.length_take, List.length_drop]
    omega
  · cases h

theorem readCols_ge {q : List Char} {k k2 : Nat} {cols : List String}
    (h : readCols q k = some (k2, cols)) : k + 1 ≤ k2 := by
  simp only [readCols, Option.map_eq_some'] at h
  obtain ⟨p, _, hp⟩ := h
  simp only [Prod.mk.injEq] at hp
  omega

theorem ensureAdd_ne_outOfFuel (cfg : PCfg) (cur add : Nat) :
    ensureAdd cfg cur add ≠ .error .outOfFuel := by
  unfold ensureAdd
  split <;> simp

theorem mapME_ne_err {α β : Type} (f : α → Except PErr β) (bad : PErr)
    (hf : ∀ a, f a ≠ .error bad) : ∀ l : List α, mapME f l ≠ .error bad := by
  intro l
  induction l with
  | nil => simp [mapME]
  | cons a l ih =>
      rw [mapME]
      intro hcon
      simp only [Bind.bind, Except.bind] at hcon
      cases hfa : f a with
      | error e => rw [hfa] at hcon; cases hcon; exact hf a (by rw [hfa])
      | ok b =>
          rw [hfa] at hcon
          cases hml : mapME f l with
          | error e =>
              rw [hml] at hcon
              cases hcon
              exact ih (by rw [hml])
          | ok bs => rw [hml] at hcon; simp at hcon

theorem computePaths_ne_outOfFuel (cols : List String) (t : GoType) (name : String) (r : Nat) :
    computePaths cols t name r ≠ .error .outOfFuel := by
  unfold computePaths
  apply mapME_ne_err
  intro col
  split
  · simp
  · split <;> simp

theorem resolveRow_ne_outOfFuel (row : Val) (cols : List String) (name : String) (r : Nat) :
    resolveRow row cols name r ≠ .error .outOfFuel := by
  unfold resolveRow
  split
  · intro hcon
    simp only [Bind.bind, Except.bind] at hcon
    cases hcp : computePaths cols _ name r with
    | error e =>
        rw [hcp] at hcon
        cases hcon
        exact computePaths_ne_outOfFuel _ _ _ _ (by rw [hcp])
    | ok paths =>
        rw [hcp] at hcon
        revert hcon
        apply mapME_ne_err
        intro cp
        split <;> simp
  · apply mapME_ne_err
    intro col
    split <;> simp

theorem emitRowsLoop_ne_outOfFuel (d : Dialect) (cols : List String) (name : String) :
    ∀ (rows : List Val) (r n : Nat) (buf : List Char) (args : List Val) (ords : List Nat),
      emitRowsLoop d cols name rows r n buf args ords ≠ .error .outOfFuel := by
  intro rows
  induction rows with
  | nil => intro r n buf args ords; simp [emitRowsLoop]
  | cons row rest ih =>
      intro r n buf args ords
      rw [emitRowsLoop]
      intro hcon
      cases hrr : resolveRow row cols name r with
      | error e =>
          rw [hrr] at hcon
          cases hcon
          exact resolveRow_ne_outOfFuel _ _ _ _ (by rw [hrr])
      | ok vs =>
          rw [hrr] at hcon
          dsimp only at hcon
          obtain ⟨b1, hb1⟩ := emitSeq_spec d vs true n
            ((if r = 0 then buf else buf ++ [',', ' ']) ++ ['(']) args ords
          rw [hb1] at hcon
          exact ih _ _ _ _ _ hcon

theorem parseLoopF_no_outOfFuel (d : Dialect) (cfg : PCfg) (lookup : String → Option Val)
    (rl : String → Option (List Val)) (q : List Char) :
    ∀ (fuel i : Nat) (st : PState) (tag : List Char) (n : Nat) (buf : List Char)
      (args : List Val) (ords : List Nat),
      q.length < fuel + i → 0 < fuel →
      parseLoopF d cfg lookup rl q fuel i st tag n buf args ords ≠ .error .outOfFuel := by
  intro fuel
  induction fuel with
  | zero => intro i st tag n buf args ords hlen hpos; omega
  | succ fuel ih =>
      intro i st tag n buf args ords hlen hpos
      rw [parseLoopF]
      cases hq : q.get? i with
      | none => simp
      | some c =>
          have hi : i < q.length := by
            by_contra hge
            rw [List.get?_eq_none.2 (by omega)] at hq
            cases hq
          cases st <;> dsimp only
          case text =>
            intro hcon
            by_cases h1 : c = '-' ∧ q.get? (i + 1) = some '-'
            · rw [if_pos h1] at hcon
              exact ih _ _ _ _ _ _ _ (by omega) (by omega) hcon
            rw [if_neg h1] at hcon
            by_cases h2 : c = '#' ∧ d = .mysql
            · rw [if_pos h2] at hcon
              exact ih _ _ _ _ _ _ _ (by omega) (by omega) hcon
            rw [if_neg h2] at hcon
            by_cases h3 : c = '/' ∧ q.get? (i + 1) = some '*'
            · rw [if_pos h3] at hcon
              exact ih _ _ _ _ _ _ _ (by omega) (by omega) hcon
            rw [if_neg h3] at hcon
            by_cases h4 : c = '\''
            · rw [if_pos h4] at hcon
              exact ih _ _ _ _ _ _ _ (by omega) (by omega) hcon
            rw [if_neg h4] at hcon
            by_cases h5 : c = '"'
            · rw [if_pos h5] at hcon
              exact ih _ _ _ _ _ _ _ (by omega) (by omega) hcon
            rw [if_neg h5] at hcon
            by_cases h6 : c = Char.ofNat 96 ∧ (d = .mysql ∨ d = .sqlite)
            · rw [if_pos h6] at hcon
              exact ih _ _ _ _ _ _ _ (by omega) (by omega) hcon
            rw [if_neg h6] at hcon
            by_cases h7 : c = '[' ∧ d = .sqlserver
            · rw [if_pos h7] at hcon
              exact ih _ _ _ _ _ _ _ (by omega) (by omega) hcon
            rw [if_neg h7] at hcon
            by_cases h8 : c = '$'
            · rw [if_pos h8] at hcon
              cases hdt : readDollarTag q i with
              | some tag2 =>
                  simp only [hdt] at hcon
                  have := readDollarTag_len hdt
                  exact ih _ _ _ _ _ _ _ (by omega) (by omega) hcon
              | none =>
                  simp only [hdt] at hcon
                  exact ih _ _ _ _ _ _ _ (by omega) (by omega) hcon
            rw [if_neg h8] at hcon
            by_cases h9 : c = ':' ∧ placeholderStart q i
            · rw [if_pos h9] at hcon
              by_cases hnt : cfg.maxNameLen > 0 ∧
                  i + 1 + 1 + alnumRun (q.drop (i + 1 + 1)) - (i + 1) > cfg.maxNameLen
              · rw [if_pos hnt] at hcon
                simp at hcon
              rw [if_neg hnt] at hcon
              by_cases hbr : q.get? (i + 1 + 1 + alnumRun (q.drop (i + 1 + 1))) = some '{'
              · rw [if_pos hbr] at hcon
                cases hrc : readCols q (i + 1 + 1 + alnumRun (q.drop (i + 1 + 1))) with
                | none => simp only [hrc] at hcon; simp at hcon
                | some p =>
                    obtain ⟨k2, cols⟩ := p
                    simp only [hrc] at hcon
                    have hk2 := readCols_ge hrc
                    repeat' split at hcon
                    all_goals first
                      | (simp at hcon; done)
                      | exact ih _ _ _ _ _ _ _ (by omega) (by omega) hcon
                      | (rename_i heq
                         exact ensureAdd_ne_outOfFuel _ _ _ (Except.error.inj hcon ▸ heq))
                      | (rename_i heq
                         exact emitRowsLoop_ne_outOfFuel _ _ _ _ _ _ _ _ _ (Except.error.inj hcon ▸ heq))
              · rw [if_neg hbr] at hcon
                repeat' split at hcon
                all_goals first
                  | (simp at hcon; done)
                  | exact ih _ _ _ _ _ _ _ (by omega) (by omega) hcon
                  | (rename_i heq
                     exact ensureAdd_ne_outOfFuel _ _ _ (Except.error.inj hcon ▸ heq))
            · rw [if_neg h9] at hcon
              exact ih _ _ _ _ _ _ _ (by omega) (by omega) hcon
          case dqd =>
            intro hcon
            by_cases he : tag.isEmpty
            · rw [if_pos he] at hcon
              exact ih _ _ _ _ _ _ _ (by omega) (by omega) hcon
            rw [if_neg he] at hcon
            cases hfs : findSub q tag i with
            | none =>
                simp only [hfs] at hcon
                exact ih _ _ _ _ _ _ _ (by omega) (by omega) hcon
            | some p =>
                simp only [hfs] at hcon
                have hp := findSub_ge hfs
                have ht : 1 ≤ tag.length := by
                  cases tag with
                  | nil => simp at he
                  | cons a b => simp
                exact ih _ _ _ _ _ _ _ (by omega) (by omega) hcon
          all_goals
            intro hcon
            repeat' split at hcon
            all_goals first
              | (simp at hcon; done)
              | exact ih _ _ _ _ _ _ _ (by omega) (by omega) hcon

/-! ### Quoted/commented regions are copied verbatim and bind nothing -/

theorem listSlice_refl (q : List Char) (i : Nat) : listSlice q i i = [] := by
  simp [listSlice]

theorem drop_eq_cons_of_get? {q : List Char} {i : Nat} {c : Char}
    (h : q.get? i = some c) : q.drop i = c :: q.drop (i + 1) := by
  rw [List.get?_eq_getElem?] at h
  obtain ⟨hlt, hv⟩ := List.getElem?_eq_some.mp h
  rw [List.drop_eq_getElem_cons hlt, hv]

theorem listSlice_one {q : List Char} {i : Nat} {c : Char}
    (h : q.get? i = some c) : listSlice q i (i + 1) = [c] := by
  simp [listSlice, drop_eq_cons_of_get? h]

theorem listSlice_two {q : List Char} {i : Nat} {c c2 : Char}
    (h : q.get? i = some c) (h2 : q.get? (i + 1) = some c2) :
    listSlice q i (i + 2) = [c, c2] := by
  have e1 := drop_eq_cons_of_get? h
  have e2 := drop_eq_cons_of_get? h2
  simp [listSlice, e1, e2, show i + 2 - i = 2 by omega]

theorem listSlice_to_end {q : List Char} {i j : Nat} (h : q.length ≤ j) :
    listSlice q i j = q.drop i := by
  apply List.take_of_length_le
  simp only [List.length_drop]
  omega

theorem listSlice_glue {q : List Char} {i i' j : Nat} (h1 : i ≤ i') (h2 : i' ≤ j) :
    listSlice q i i' ++ listSlice q i' j = listSlice q i j := by
  unfold listSlice
  rw [show j - i = (i' - i) + (j - i') by omega, List.take_add, List.drop_drop,
    show i + (i' - i) = i' by omega]

theorem findSubAux_ge {pat : List Char} :
    ∀ (l : List Char) (ofs r : Nat), findSubAux pat l ofs = some r → ofs ≤ r := by
  intro l
  induction l with
  | nil =>
      intro ofs r h
      rw [findSubAux] at h
      split at h
      · cases h; omega
      · cases h
  | cons a rest ih =>
      intro ofs r h
      rw [findSubAux] at h
      split at h
      · cases h; omega
      · have := ih (ofs + 1) r h
        omega

theorem findSubAux_prefix {pat : List Char} :
    ∀ (l : List Char) (ofs r : Nat), findSubAux pat l ofs = some r →
      pat.isPrefixOf (l.drop (r - ofs)) = true := by
  intro l
  induction l with
  | nil =>
      intro ofs r h
      rw [findSubAux] at h
      split at h
      · rename_i hp; cases h; simpa using hp
      · cases h
  | cons a rest ih =>
      intro ofs r h
      rw [findSubAux] at h
      split at h
      · rename_i hp; cases h; simpa using hp
      · have hge := findSubAux_ge rest (ofs + 1) r h
        have := ih (ofs + 1) r h
        rw [show r - ofs = (r - (ofs + 1)) + 1 by omega]
        simpa using this

theorem findSub_slice {q pat : List Char} {i p : Nat} (h : findSub q pat i = some p) :
    listSlice q p (p + pat.length) = pat := by
  simp only [findSub, Option.map_eq_some'] at h
  obtain ⟨ofs, hofs, rfl⟩ := h
  have hpre := findSubAux_prefix (q.drop i) 0 ofs (by simpa using hofs)
  simp only [Nat.sub_zero, List.drop_drop] at hpre
  have hp : pat <+: q.drop (i + ofs) := List.isPrefixOf_iff_prefix.mp hpre
  have := List.prefix_iff_eq_take.mp hp
  simp only [listSlice, show i + ofs + pat.length - (i + ofs) = pat.length by omega]
  exact this.symm

/-- Quoting/comment transparency of the parser loop: started in any
non-Plain lexical state, the loop copies the input verbatim to the output
until the state machine returns to Plain (or the input ends), and neither
appends an argument nor emits an ordinal while doing so. The second
disjunct is the fuel-exhaustion artifact, discharged by
`parseLoopF_no_outOfFuel`. -/
theorem region_skip (d : Dialect) (cfg : PCfg) (lookup : String → Option Val)
    (rl : String → Option (List Val)) (q : List Char) :
    ∀ (fuel i : Nat) (st : PState) (tag : List Char) (n : Nat) (buf : List Char)
      (args : List Val) (ords : List Nat), st ≠ .text →
      (∃ j f2 tag2, i ≤ j ∧
        parseLoopF d cfg lookup rl q (fuel + 1) i st tag n buf args ords =
          parseLoopF d cfg lookup rl q (f2 + 1) j .text tag2 n
            (buf ++ listSlice q i j) args ords) ∨
      parseLoopF d cfg lookup rl q (fuel + 1) i st tag n buf args ords =
        .error .outOfFuel := by
  intro fuel
  induction fuel with
  | zero =>
      intro i st tag n buf args ords hst
      cases hq : q.get? i with
      | none =>
          rw [List.get?_eq_getElem?] at hq
          exact Or.inl ⟨i, 0, tag, Nat.le_refl i,
            by simp [parseLoopF, hq, listSlice_refl]⟩
      | some c =>
          refine Or.inr ?_
          rw [parseLoopF]
          rw [hq]
          cases st <;> first
            | (exact absurd rfl hst)
            | (dsimp only; repeat' split
               all_goals rfl)
  | succ f ih =>
      intro i st tag n buf args ords hst
      cases hq : q.get? i with
      | none =>
          rw [List.get?_eq_getElem?] at hq
          exact Or.inl ⟨i, f + 1, tag, Nat.le_refl i,
            by simp [parseLoopF, hq, listSlice_refl]⟩
      | some c =>
          have hi : i < q.length := by
            by_contra hge
            rw [List.get?_eq_none.2 (by omega)] at hq
            cases hq
          rw [parseLoopF]
          rw [hq]
          cases st with
          | text => exact absurd rfl hst
          | lc =>
              dsimp only
              split
              · exact Or.inl ⟨i + 1, f, tag, by omega, by rw [listSlice_one hq]⟩
              · rcases ih (i + 1) .lc tag n (buf ++ [c]) args ords (by simp) with
                  ⟨j, f2, tag2, hij, heq⟩ | hoof
                · refine Or.inl ⟨j, f2, tag2, by omega, ?_⟩
                  rw [heq, List.append_assoc, ← listSlice_one hq,
                    listSlice_glue (by omega) hij]
                · exact Or.inr hoof
          | bc =>
              dsimp only
              split
              · rename_i hcc
                refine Or.inl ⟨i + 2, f, tag, by omega, ?_⟩
                rw [listSlice_two hq hcc.2, hcc.1]
              · rcases ih (i + 1) .bc tag n (buf ++ [c]) args ords (by simp) with
                  ⟨j, f2, tag2, hij, heq⟩ | hoof
                · refine Or.inl ⟨j, f2, tag2, by omega, ?_⟩
                  rw [heq, List.append_assoc, ← listSlice_one hq,
                    listSlice_glue (by omega) hij]
                · exact Or.inr hoof
          | sq =>
              dsimp only
              by_cases hb : c = '\\'
              · rw [if_pos hb]
                cases hq2 : q.get? (i + 1) with
                | some c2 =>
                    dsimp only
                    rcases ih (i + 2) .sq tag n (buf ++ [c, c2]) args ords (by simp) with
                      ⟨j, f2, tag2, hij, heq⟩ | hoof
                    · refine Or.inl ⟨j, f2, tag2, by omega, ?_⟩
                      rw [heq, List.append_assoc, ← listSlice_two hq hq2,
                        listSlice_glue (by omega) hij]
                    · exact Or.inr hoof
                | none =>
                    dsimp only
                    rcases ih (i + 1) .sq tag n (buf ++ [c]) args ords (by simp) with
                      ⟨j, f2, tag2, hij, heq⟩ | hoof
                    · refine Or.inl ⟨j, f2, tag2, by omega, ?_⟩
                      rw [heq, List.append_assoc, ← listSlice_one hq,
                        listSlice_glue (by omega) hij]
                    · exact Or.inr hoof
              rw [if_neg hb]
              by_cases hqc : c = '\''
              · rw [if_pos hqc]
                cases hq2 : q.get? (i + 1) with
                | some c2 =>
                    dsimp only
                    by_cases hc2 : c2 = '\''
                    · rw [if_pos hc2]
                      rcases ih (i + 2) .sq tag n (buf ++ [c, c2]) args ords (by simp) with
                        ⟨j, f2, tag2, hij, heq⟩ | hoof
                      · refine Or.inl ⟨j, f2, tag2, by omega, ?_⟩
                        rw [heq, List.append_assoc, ← listSlice_two hq hq2,
                          listSlice_glue (by omega) hij]
                      · exact Or.inr hoof
                    · rw [if_neg hc2]
                      exact Or.inl ⟨i + 1, f, tag, by omega, by rw [listSlice_one hq]⟩
                | none =>
                    dsimp only
                    exact Or.inl ⟨i + 1, f, tag, by omega, by rw [listSlice_one hq]⟩
              rw [if_neg hqc]
              rcases ih (i + 1) .sq tag n (buf ++ [c]) args ords (by simp) with
                ⟨j, f2, tag2, hij, heq⟩ | hoof
              · refine Or.inl ⟨j, f2, tag2, by omega, ?_⟩
                rw [heq, List.append_assoc, ← listSlice_one hq,
                  listSlice_glue (by omega) hij]
              · exact Or.inr hoof
          | dq =>
              dsimp only
              by_cases hb : c = '\\'
              · rw [if_pos hb]
                cases hq2 : q.get? (i + 1) with
                | some c2 =>
                    dsimp only
                    rcases ih (i + 2) .dq tag n (buf ++ [c, c2]) args ords (by simp) with
                      ⟨j, f2, tag2, hij, heq⟩ | hoof
                    · refine Or.inl ⟨j, f2, tag2, by omega, ?_⟩
                      rw [heq, List.append_assoc, ← listSlice_two hq hq2,
                        listSlice_glue (by omega) hij]
                    · exact Or.inr hoof
                | none =>
                    dsimp only
                    rcases ih (i + 1) .dq tag n (buf ++ [c]) args ords (by simp) with
                      ⟨j, f2, tag2, hij, heq⟩ | hoof
                    · refine Or.inl ⟨j, f2, tag2, by omega, ?_⟩
                      rw [heq, List.append_assoc, ← listSlice_one hq,
                        listSlice_glue (by omega) hij]
                    · exact Or.inr hoof
              rw [if_neg hb]
              by_cases hqc : c = '"'
              · rw [if_pos hqc]
                cases hq2 : q.get? (i + 1) with
                | some c2 =>
                    dsimp only
                    by_cases hc2 : c2 = '"'
                    · rw [if_pos hc2]
                      rcases ih (i + 2) .dq tag n (buf ++ [c, c2]) args ords (by simp) with
                        ⟨j, f2, tag2, hij, heq⟩ | hoof
                      · refine Or.inl ⟨j, f2, tag2, by omega, ?_⟩
                        rw [heq, List.append_assoc, ← listSlice_two hq hq2,
                          listSlice_glue (by omega) hij]
                      · exact Or.inr hoof
                    · rw [if_neg hc2]
                      exact Or.inl ⟨i + 1, f, tag, by omega, by rw [listSlice_one hq]⟩
                | none =>
                    dsimp only
                    exact Or.inl ⟨i + 1, f, tag, by omega, by rw [listSlice_one hq]⟩
              rw [if_neg hqc]
              rcases ih (i + 1) .dq tag n (buf ++ [c]) args ords (by simp) with
                ⟨j, f2, tag2, hij, heq⟩ | hoof
              · refine Or.inl ⟨j, f2, tag2, by omega, ?_⟩
                rw [heq, List.append_assoc, ← listSlice_one hq,
                  listSlice_glue (by omega) hij]
              · exact Or.inr hoof
          | bt =>
              dsimp only
              by_cases hqc : c = Char.ofNat 96
              · rw [if_pos hqc]
                cases hq2 : q.get? (i + 1) with
                | some c2 =>
                    dsimp only
                    by_cases hc2 : c2 = Char.ofNat 96
                    · rw [if_pos hc2]
                      rcases ih (i + 2) .bt tag n (buf ++ [c, c2]) args ords (by simp) with
                        ⟨j, f2, tag2, hij, heq⟩ | hoof
                      · refine Or.inl ⟨j, f2, tag2, by omega, ?_⟩
                        rw [heq, List.append_assoc, ← listSlice_two hq hq2,
                          listSlice_glue (by omega) hij]
                      · exact Or.inr hoof
                    · rw [if_neg hc2]
                      exact Or.inl ⟨i + 1, f, tag, by omega, by rw [listSlice_one hq]⟩
                | none =>
                    dsimp only
                    exact Or.inl ⟨i + 1, f, tag, by omega, by rw [listSlice_one hq]⟩
              rw [if_neg hqc]
              rcases ih (i + 1) .bt tag n (buf ++ [c]) args ords (by simp) with
                ⟨j, f2, tag2, hij, heq⟩ | hoof
              · refine Or.inl ⟨j, f2, tag2, by omega, ?_⟩
                rw [heq, List.append_assoc, ← listSlice_one hq,
                  listSlice_glue (by omega) hij]
              · exact Or.inr hoof
          | br =>
              dsimp only
              by_cases hqc : c = ']'
              · rw [if_pos hqc]
                cases hq2 : q.get? (i + 1) with
                | some c2 =>
                    dsimp only
                    by_cases hc2 : c2 = ']'
                    · rw [if_pos hc2]
                      rcases ih (i + 2) .br tag n (buf ++ [c, c2]) args ords (by simp) with
                        ⟨j, f2, tag2, hij, heq⟩ | hoof
                      · refine Or.inl ⟨j, f2, tag2, by omega, ?_⟩
                        rw [heq, List.append_assoc, ← listSlice_two hq hq2,
                          listSlice_glue (by omega) hij]
                      · exact Or.inr hoof
                    · rw [if_neg hc2]
                      exact Or.inl ⟨i + 1, f, tag, by omega, by rw [listSlice_one hq]⟩
                | none =>
                    dsimp only
                    exact Or.inl ⟨i + 1, f, tag, by omega, by rw [listSlice_one hq]⟩
              rw [if_neg hqc]
              rcases ih (i + 1) .br tag n (buf ++ [c]) args ords (by simp) with
                ⟨j, f2, tag2, hij, heq⟩ | hoof
              · refine Or.inl ⟨j, f2, tag2, by omega, ?_⟩
                rw [heq, List.append_assoc, ← listSlice_one hq,
                  listSlice_glue (by omega) hij]
              · exact Or.inr hoof
          | dqd =>
              dsimp only
              by_cases he : tag.isEmpty
              · rw [if_pos he]
                rcases ih q.length .dqd tag n (buf ++ q.drop i) args ords (by simp) with
                  ⟨j, f2, tag2, hij, heq⟩ | hoof
                · refine Or.inl ⟨j, f2, tag2, by omega, ?_⟩
                  rw [heq, List.append_assoc,
                    show q.drop i = listSlice q i q.length from (listSlice_to_end (Nat.le_refl _)).symm,
                    listSlice_glue (by omega) hij]
                · exact Or.inr hoof
              rw [if_neg he]
              cases hfs : findSub q tag i with
              | none =>
                  dsimp only
                  rcases ih q.length .dqd tag n (buf ++ q.drop i) args ords (by simp) with
                    ⟨j, f2, tag2, hij, heq⟩ | hoof
                  · refine Or.inl ⟨j, f2, tag2, by omega, ?_⟩
                    rw [heq, List.append_assoc,
                      show q.drop i = listSlice q i q.length from (listSlice_to_end (Nat.le_refl _)).symm,
                      listSlice_glue (by omega) hij]
                  · exact Or.inr hoof
              | some p =>
                  dsimp only
                  have hip := findSub_ge hfs
                  refine Or.inl ⟨p + tag.length, f, [], by omega, ?_⟩
                  rw [List.append_assoc, ← findSub_slice hfs,
                    listSlice_glue hip (by omega), findSub_slice hfs]

/-! ### Flattened leaves and the ambiguity marking of fieldIndexMap -/

mutual
/-- The ordered list of flattened leaves of a type: exposed name plus
fieldInfo, in the traversal order of `walkT` (specification-side
companion of the walk, without the map). -/
def flatT : GoType → List Nat → List (String × FieldInfo)
  | .ptrT t', path => flatT t' path
  | .structT _ fs, path => flatFs fs path 0
  | _, _ => []

/-- Flattened leaves contributed by a field list. -/
def flatFs : Fields → List Nat → Nat → List (String × FieldInfo)
  | .nil, _, _ => []
  | .cons meta ft rest, path, i =>
      (if meta.exported = false then []
       else if meta.tagDash then []
       else if shouldFlatten ft then flatT ft (path ++ [i])
       else [(exposedName meta,
              { index := path ++ [i], scalar := meta.tagScalar, ambiguous := false })])
      ++ flatFs rest path (i + 1)
end

/-- Folding `insertLeaf` over a leaf list. -/
def foldIns (m : FMap) (l : List (String × FieldInfo)) : FMap :=
  l.foldl (fun m e => insertLeaf m e.1 e.2) m

mutual
theorem walkT_eq_foldIns : ∀ (t : GoType) (path : List Nat) (m : FMap),
    walkT t path m = foldIns m (flatT t path)
  | .prim s, path, m => by simp [walkT, flatT, foldIns]
  | .timeT, path, m => by simp [walkT, flatT, foldIns]
  | .scannerT s, path, m => by simp [walkT, flatT, foldIns]
  | .ptrT t', path, m => by
      rw [walkT, flatT]
      exact walkT_eq_foldIns t' path m
  | .structT nm fs, path, m => by
      rw [walkT, flatT]
      exact walkFs_eq_foldIns fs path 0 m

theorem walkFs_eq_foldIns : ∀ (fs : Fields) (path : List Nat) (i : Nat) (m : FMap),
    walkFs fs path i m = foldIns m (flatFs fs path i)
  | .nil, path, i, m => by simp [walkFs, flatFs, foldIns]
  | .cons meta ft rest, path, i, m => by
      rw [walkFs, flatFs]
      by_cases h1 : meta.exported = false
      · simp only [if_pos h1]
        rw [walkFs_eq_foldIns rest path (i + 1) m]
        simp [foldIns]
      simp only [if_neg h1]
      by_cases h2 : meta.tagDash
      · simp only [if_pos h2]
        rw [walkFs_eq_foldIns rest path (i + 1) m]
        simp [foldIns]
      simp only [if_neg h2]
      by_cases h3 : shouldFlatten ft
      · simp only [if_pos h3]
        rw [walkFs_eq_foldIns rest path (i + 1) (walkT ft (path ++ [i]) m),
          walkT_eq_foldIns ft (path ++ [i]) m]
        simp [foldIns, List.foldl_append]
      · simp only [if_neg h3]
        rw [walkFs_eq_foldIns rest path (i + 1)
          (insertLeaf m (exposedName meta)
            { index := path ++ [i], scalar := meta.tagScalar, ambiguous := false })]
        simp [foldIns]
end

/-- The number of flattened leaves exposing a given name. -/
def leafCount (l : List (String × FieldInfo)) (name : String) : Nat :=
  (l.filter (fun e => e.1 = name)).length

theorem assocLookup_append_some {α : Type} (m l : List (String × α)) (name : String)
    (x : α) (h : assocLookup m name = some x) : assocLookup (m ++ l) name = some x := by
  induction m with
  | nil => simp [assocLookup] at h
  | cons e rest ih =>
      obtain ⟨k', v'⟩ := e
      rw [assocLookup] at h
      rw [List.cons_append, assocLookup]
      by_cases hk : k' = name
      · simpa [hk] using h
      · rw [if_neg hk] at h ⊢; exact ih h

theorem assocLookup_append_one_none {α : Type} (m : List (String × α)) (k : String)
    (v : α) (name : String) (h : assocLookup m name = none) :
    assocLookup (m ++ [(k, v)]) name = if k = name then some v else none := by
  induction m with
  | nil => simp [assocLookup]
  | cons e rest ih =>
      obtain ⟨k', v'⟩ := e
      rw [assocLookup] at h
      rw [List.cons_append, assocLookup]
      by_cases hk : k' = name
      · rw [if_pos hk] at h; exact absurd h (by simp)
      · rw [if_neg hk] at h ⊢; exact ih h

theorem assocLookup_replace_ne {α : Type} (m : List (String × α)) (k : String)
    (v : α) (name : String) (h : k ≠ name) :
    assocLookup (assocReplace m k v) name = assocLookup m name := by
  induction m with
  | nil => simp [assocReplace]
  | cons e rest ih =>
      obtain ⟨k', v'⟩ := e
      rw [assocReplace]
      by_cases hk : k' = k
      · rw [if_pos hk, assocLookup, assocLookup, hk, if_neg h, if_neg h]
      · rw [if_neg hk, assocLookup, assocLookup]
        by_cases hn : k' = name
        · rw [if_pos hn, if_pos hn]
        · rw [if_neg hn, if_neg hn]; exact ih

theorem assocLookup_replace_eq {α : Type} (m : List (String × α)) (k : String)
    (v x : α) (h : assocLookup m k = some x) :
    assocLookup (assocReplace m k v) k = some v := by
  induction m with
  | nil => simp [assocLookup] at h
  | cons e rest ih =>
      obtain ⟨k', v'⟩ := e
      rw [assocLookup] at h
      rw [assocReplace]
      by_cases hk : k' = k
      · rw [if_pos hk, assocLookup, if_pos hk]
      · rw [if_neg hk] at h
        rw [if_neg hk, assocLookup, if_neg hk]
        exact ih h

theorem fmLookup_insertLeaf_ne (m : FMap) (k : String) (fi : FieldInfo)
    (name : String) (h : k ≠ name) :
    fmLookup (insertLeaf m k fi) name = fmLookup m name := by
  rw [insertLeaf]
  cases hk : fmLookup m k with
  | none =>
      dsimp only
      cases hm : fmLookup m name with
      | none =>
          show assocLookup (m ++ [(k, fi)]) name = none
          rw [assocLookup_append_one_none m k fi name hm, if_neg h]
      | some x => exact assocLookup_append_some m [(k, fi)] name x hm
  | some prev =>
      dsimp only
      by_cases ha : prev.ambiguous
      · rw [if_pos ha]
      · rw [if_neg ha]
        exact assocLookup_replace_ne m k _ name h

theorem foldIns_ambiguous (name : String) :
    ∀ (l : List (String × FieldInfo)) (m : FMap),
      ((fmLookup m name = none ∧ 2 ≤ leafCount l name) ∨
       (∃ fi, fmLookup m name = some fi ∧ fi.ambiguous = false ∧ 1 ≤ leafCount l name) ∨
       (∃ fi, fmLookup m name = some fi ∧ fi.ambiguous = true)) →
      ∃ fi, fmLookup (foldIns m l) name = some fi ∧ fi.ambiguous = true := by
  intro l
  induction l with
  | nil =>
      intro m h
      rcases h with ⟨_, hc⟩ | ⟨fi, _, _, hc⟩ | ⟨fi, hl, ha⟩
      · simp [leafCount] at hc
      · simp [leafCount] at hc
      · exact ⟨fi, hl, ha⟩
  | cons e rest ih =>
      intro m h
      obtain ⟨k, v⟩ := e
      have hstep : foldIns m ((k, v) :: rest) = foldIns (insertLeaf m k v) rest := rfl
      rw [hstep]
      by_cases hk : k = name
      · subst hk
        rcases h with ⟨hn, hc⟩ | ⟨fi, hl, ha, hc⟩ | ⟨fi, hl, ha⟩
        · have hins : fmLookup (insertLeaf m k v) k = some v := by
            rw [insertLeaf, hn]
            show assocLookup (m ++ [(k, v)]) k = some v
            rw [assocLookup_append_one_none m k v k hn, if_pos rfl]
          have hcr : 1 ≤ leafCount rest k := by
            simp only [leafCount, List.filter, decide_eq_true_eq] at hc ⊢
            simp at hc; omega
          apply ih
          by_cases hv : v.ambiguous
          · exact Or.inr (Or.inr ⟨v, hins, hv⟩)
          · exact Or.inr (Or.inl ⟨v, hins, by simpa using hv, hcr⟩)
        · have hins : fmLookup (insertLeaf m k v) k =
              some { index := [], scalar := false, ambiguous := true } := by
            rw [insertLeaf, hl]
            dsimp only
            rw [ha]
            simp only [Bool.false_eq_true, if_false]
            exact assocLookup_replace_eq m k _ fi hl
          exact ih _ (Or.inr (Or.inr ⟨_, hins, rfl⟩))
        · have hins : fmLookup (insertLeaf m k v) k = some fi := by
            rw [insertLeaf, hl]
            dsimp only
            rw [ha, if_pos rfl]
            exact hl
          exact ih _ (Or.inr (Or.inr ⟨fi, hins, ha⟩))
      · have hpres := fmLookup_insertLeaf_ne m k v name hk
        have hcount : leafCount ((k, v) :: rest) name = leafCount rest name := by
          simp [leafCount, List.filter, hk]
        rcases h with ⟨hn, hc⟩ | ⟨fi, hl, ha, hc⟩ | ⟨fi, hl, ha⟩
        · exact ih _ (Or.inl ⟨hpres ▸ hn, hcount ▸ hc⟩)
        · exact ih _ (Or.inr (Or.inl ⟨fi, hpres ▸ hl, ha, hcount ▸ hc⟩))
        · exact ih _ (Or.inr (Or.inr ⟨fi, hpres ▸ hl, ha⟩))

theorem fieldIndexMap_ambiguous (t : GoType) (name : String)
    (h : 2 ≤ leafCount (flatT t []) name) :
    ∃ fi, fmLookup (fieldIndexMap t) name = some fi ∧ fi.ambiguous = true := by
  have : fieldIndexMap t = foldIns [] (flatT t []) := walkT_eq_foldIns t [] []
  rw [this]
  exact foldIns_ambiguous name (flatT t []) [] (Or.inl ⟨rfl, h⟩)

theorem stripPtrs_flatT : ∀ (t : GoType) (path : List Nat),
    flatT (stripPtrs t) path = flatT t path
  | .ptrT t', path => by rw [stripPtrs, flatT]; exact stripPtrs_flatT t' path
  | .prim _, _ => rfl
  | .timeT, _ => rfl
  | .scannerT _, _ => rfl
  | .structT _ _, _ => rfl

theorem mapME_mem_err {α β : Type} (f : α → Except PErr β) :
    ∀ (l : List α), (∃ x ∈ l, ∃ e, f x = .error e) →
      ∀ out, mapME f l ≠ .ok out := by
  intro l
  induction l with
  | nil => rintro ⟨x, hx, _⟩; simp at hx
  | cons a rest ih =>
      rintro ⟨x, hx, e, he⟩ out hok
      rw [mapME] at hok
      simp only [Bind.bind, Except.bind] at hok
      cases hfa : f a with
      | error e' => rw [hfa] at hok; exact Except.noConfusion hok
      | ok b =>
          rw [hfa] at hok
          cases hmr : mapME f rest with
          | error e' => rw [hmr] at hok; exact Except.noConfusion hok
          | ok bs =>
              rcases List.mem_cons.mp hx with hxa | hxr
              · subst hxa; rw [hfa] at he; exact Except.noConfusion he
              · exact ih ⟨x, hxr, e, he⟩ bs hmr

/-! ### Nil-crossing paths resolve to SQL NULL -/

/-- A field path crosses (or ends at) a nil pointer in the bound value:
either an intermediate dereference hits `vptr none`, or the leaf itself is
`vptr none` (the two `return nil, true` sites of getValueByPathAny). -/
def pathCrossesNil : Val → List Nat → Bool
  | _, [] => false
  | v, idx :: rest =>
      match stripPtrsNil v with
      | none => true
      | some w =>
          match w with
          | .vstructV _ fs =>
              match fs.get? idx with
              | none => false
              | some f =>
                  if rest.isEmpty then
                    match f with
                    | .vptr none => true
                    | _ => false
                  else pathCrossesNil f rest
          | _ => false

theorem getValueByPathAny_nil : ∀ (v : Val) (path : List Nat),
    pathCrossesNil v path = true → getValueByPathAny v path = some .null := by
  intro v path
  induction path generalizing v with
  | nil => intro h; simp [pathCrossesNil] at h
  | cons idx rest ih =>
      intro h
      rw [pathCrossesNil] at h
      rw [getValueByPathAny]
      cases hs : stripPtrsNil v with
      | none => rfl
      | some w =>
          rw [hs] at h
          dsimp only at h ⊢
          cases w with
          | vstructV t fs =>
              dsimp only at h ⊢
              cases hf : fs.get? idx with
              | none => rw [hf] at h; simp at h
              | some f =>
                  rw [hf] at h
                  dsimp only at h ⊢
                  by_cases hr : rest.isEmpty
                  · rw [if_pos hr] at h ⊢
                    cases f with
                    | vptr o =>
                        cases o with
                        | none => rfl
                        | some f' => simp at h
                    | null => simp at h
                    | vint n => simp at h
                    | vstr s => simp at h
                    | vbytes bs => simp at h
                    | vlist vs => simp at h
                    | vscalar w' => simp at h
                    | vvaluer w' => simp at h
                    | vambig a => simp at h
                    | vstructV t' fs' => simp at h
                    | vmap es => simp at h
                    | vzero t' => simp at h
                  · rw [if_neg hr] at h ⊢
                    exact ih f h
          | null => simp at h
          | vint n => simp at h
          | vstr s => simp at h
          | vbytes bs => simp at h
          | vlist vs => simp at h
          | vscalar w' => simp at h
          | vvaluer w' => simp at h
          | vambig a => simp at h
          | vptr o => simp at h
          | vmap es => simp at h
          | vzero t' => simp at h

/-! ### Scalar placeholder characterization (plain values) -/

/-- A bound value that a scalar placeholder converts into exactly one
argument: every kind except an ambiguous marker and a slice. -/
def plainBindable : Val → Bool
  | .vambig _ => false
  | .vlist _ => false
  | _ => true

/-- The single argument contributed by a plain bound value (the scalar
wrapper exposes its payload; everything else passes through). -/
def scalarArg : Val → Val
  | .vscalar w => w
  | w => w

/-- The argument a placeholder contributes under a lookup function, for
the all-plain-scalars characterization. -/
def scalarArgOf (lookup : String → Option Val) : Ph → Val
  | .scalar name => scalarArg ((lookup name).getD .null)
  | .rowsB _ _ => .null

theorem phStep_scalar_plain (lookup : String → Option Val)
    (rl : String → Option (List Val)) (cfg : PCfg) (name : String) (v : Val) (n : Nat)
    (hl : lookup name = some v) (hp : plainBindable v = true) (hmax : cfg.maxParams = 0) :
    phStep lookup rl cfg (.scalar name) n = .ok (n + 1, [scalarArg v], [n + 1]) := by
  rw [phStep, hl]
  cases v <;> simp_all [plainBindable, scalarArg, ensureAdd, Bind.bind, Except.bind]

theorem processPhs_scalars (lookup : String → Option Val)
    (rl : String → Option (List Val)) (cfg : PCfg) (hmax : cfg.maxParams = 0) :
    ∀ (phs : List Ph) (n : Nat),
      (∀ ph ∈ phs, ∃ name v, ph = .scalar name ∧ lookup name = some v ∧
        plainBindable v = true) →
      processPhs lookup rl cfg phs n =
        .ok (n + phs.length, phs.map (scalarArgOf lookup), List.range' (n + 1) phs.length) := by
  intro phs
  induction phs with
  | nil => intro n _; simp [processPhs]
  | cons ph rest ih =>
      intro n h
      obtain ⟨name, v, rfl, hl, hp⟩ := h ph (List.mem_cons_self ph rest)
      have hstep := phStep_scalar_plain lookup rl cfg name v n hl hp hmax
      have hrest := ih (n + 1) (fun p hp' => h p (List.mem_cons_of_mem _ hp'))
      rw [processPhs]
      simp only [Bind.bind, Except.bind, hstep, hrest]
      have harg : scalarArgOf lookup (.scalar name) = scalarArg v := by
        simp [scalarArgOf, hl]
      simp [harg, List.range'_succ]
      omega

/-! ### Scan-side helper lemmas (holder reset, null handling, trace safety) -/

theorem foldlSetNone_preserves :
    ∀ (l : List Nat) (hs : List (Option Val)) (i : Nat),
      hs.get? i = some none →
      (l.foldl (fun a j => a.set j none) hs).get? i = some none := by
  intro l
  induction l with
  | nil => intro hs i h; exact h
  | cons j rest ih =>
      intro hs i h
      rw [List.foldl_cons]
      apply ih
      by_cases hj : j = i
      · subst hj
        have hlen : j < hs.length := by
          by_contra hge
          rw [List.get?_eq_getElem?, List.getElem?_eq_none (by omega)] at h
          exact Option.noConfusion h
        rw [List.get?_eq_getElem?]
        simp [List.getElem?_set_self, hlen]
      · rw [List.get?_eq_getElem?, List.getElem?_set_ne hj, ← List.get?_eq_getElem?]
        exact h

theorem resetHolders_mem (plan : ScanPlanL) (holders : List (Option Val)) (i : Nat)
    (hmem : i ∈ plan.ptrIdx) (hlen : i < holders.length) :
    (resetHolders plan holders).get? i = some none := by
  rw [resetHolders]
  obtain ⟨pre, post, hsplit⟩ := List.append_of_mem hmem
  rw [hsplit, List.foldl_append, List.foldl_cons]
  apply foldlSetNone_preserves
  have hlen2 : i < (pre.foldl (fun a j => a.set j none) holders).length := by
    have : ∀ (l : List Nat) (hs : List (Option Val)),
        (l.foldl (fun a j => a.set j none) hs).length = hs.length := by
      intro l
      induction l with
      | nil => intro hs; rfl
      | cons j rest ih => intro hs; rw [List.foldl_cons, ih]; simp
    rw [this]; exact hlen
  rw [List.get?_eq_getElem?]
  simp [List.getElem?_set_self, hlen2]

theorem scanColAssign_ptrK_null (conv : Val → Val) (dstT : GoType) (plan : ScanPlanL)
    (raw : List Val) (i : Nat) (st : ScanSt)
    (hk : plan.kinds.get? i = some .ptrK) (hr : raw.getD i .null = .null) :
    scanColAssign conv dstT plan raw i st =
      .ok { st with holders := st.holders.set i none } := by
  rw [scanColAssign, hk]
  dsimp only
  rw [hr]

theorem scanColAssign_value_null (conv : Val → Val) (dstT : GoType) (plan : ScanPlanL)
    (raw : List Val) (i : Nat) (st : ScanSt)
    (hk : plan.kinds.get? i = some .value) (hr : raw.getD i .null = .null) :
    scanColAssign conv dstT plan raw i st = .error (.nullIntoValue i) := by
  rw [scanColAssign, hk]
  dsimp only
  rw [hr]

theorem scanColAssign_scanner_capture (conv : Val → Val) (dstT : GoType) (plan : ScanPlanL)
    (raw : List Val) (i : Nat) (st : ScanSt)
    (hk : plan.kinds.get? i = some .scanner)
    (hp : isPtrScanner (fieldTypByIndexD dstT (plan.fPath.getD i [])) = true) :
    scanColAssign conv dstT plan raw i st =
      .ok { st with sinks := st.sinks.set i (raw.getD i .null) } := by
  rw [scanColAssign, hk]
  dsimp only
  rw [if_pos hp]

theorem applyPtrScanners_trace_nonnull (conv : Val → Val) (plan : ScanPlanL) :
    ∀ (idxs : List Nat) (dst : Val) (sinks : List Val) (tr d' : _) (tr' : List Val),
      (∀ x ∈ tr, x ≠ Val.null) →
      applyPtrScanners conv plan idxs dst sinks tr = .ok (d', tr') →
      ∀ x ∈ tr', x ≠ Val.null := by
  intro idxs
  induction idxs with
  | nil =>
      intro dst sinks tr d' tr' htr h
      rw [applyPtrScanners] at h
      cases h
      exact htr
  | cons i rest ih =>
      intro dst sinks tr d' tr' htr h
      rw [applyPtrScanners] at h
      cases hraw : sinks.getD i .null with
      | null =>
          rw [hraw] at h
          dsimp only at h
          cases hset : setFieldByIndexV dst (plan.fPath.getD i []) (.vptr none) with
          | none => rw [hset] at h; exact Except.noConfusion h
          | some d0 =>
              rw [hset] at h
              exact ih d0 sinks tr d' tr' htr h
      | vint m =>
          rw [hraw] at h; dsimp only at h
          cases hset : setFieldByIndexV dst (plan.fPath.getD i [])
              (.vptr (some (conv (.vint m)))) with
          | none => rw [hset] at h; exact Except.noConfusion h
          | some d0 =>
              rw [hset] at h
              refine ih d0 sinks (tr ++ [.vint m]) d' tr' ?_ h
              intro x hx
              rcases List.mem_append.mp hx with hx1 | hx2
              · exact htr x hx1
              · rcases List.mem_singleton.mp hx2 with rfl; simp
      | vstr s =>
          rw [hraw] at h; dsimp only at h
          cases hset : setFieldByIndexV dst (plan.fPath.getD i [])
              (.vptr (some (conv (.vstr s)))) with
          | none => rw [hset] at h; exact Except.noConfusion h
          | some d0 =>
              rw [hset] at h
              refine ih d0 sinks (tr ++ [.vstr s]) d' tr' ?_ h
              intro x hx
              rcases List.mem_append.mp hx with hx1 | hx2
              · exact htr x hx1
              · rcases List.mem_singleton.mp hx2 with rfl; simp
      | vbytes bs =>
          rw [hraw] at h; dsimp only at h
          cases hset : setFieldByIndexV dst (plan.fPath.getD i [])
              (.vptr (some (conv (.vbytes bs)))) with
          | none => rw [hset] at h; exact Except.noConfusion h
          | some d0 =>
              rw [hset] at h
              refine ih d0 sinks (tr ++ [.vbytes bs]) d' tr' ?_ h
              intro x hx
              rcases List.mem_append.mp hx with hx1 | hx2
              · exact htr x hx1
              · rcases List.mem_singleton.mp hx2 with rfl; simp
      | vlist vs =>
          rw [hraw] at h; dsimp only at h
          cases hset : setFieldByIndexV dst (plan.fPath.getD i [])
              (.vptr (some (conv (.vlist vs)))) with
          | none => rw [hset] at h; exact Except.noConfusion h
          | some d0 =>
              rw [hset] at h
              refine ih d0 sinks (tr ++ [.vlist vs]) d' tr' ?_ h
              intro x hx
              rcases List.mem_append.mp hx with hx1 | hx2
              · exact htr x hx1
              · rcases List.mem_singleton.mp hx2 with rfl; simp
      | vscalar w =>
          rw [hraw] at h; dsimp only at h
          cases hset : setFieldByIndexV dst (plan.fPath.getD i [])
              (.vptr (some (conv (.vscalar w)))) with
          | none => rw [hset] at h; exact Except.noConfusion h
          | some d0 =>
              rw [hset] at h
              refine ih d0 sinks (tr ++ [.vscalar w]) d' tr' ?_ h
              intro x hx
              rcases List.mem_append.mp hx with hx1 | hx2
              · exact htr x hx1
              · rcases List.mem_singleton.mp hx2 with rfl; simp
      | vvaluer w =>
          rw [hraw] at h; dsimp only at h
          cases hset : setFieldByIndexV dst (plan.fPath.getD i [])
              (.vptr (some (conv (.vvaluer w)))) with
          | none => rw [hset] at h; exact Except.noConfusion h
          | some d0 =>
              rw [hset] at h
              refine ih d0 sinks (tr ++ [.vvaluer w]) d' tr' ?_ h
              intro x hx
              rcases List.mem_append.mp hx with hx1 | hx2
              · exact htr x hx1
              · rcases List.mem_singleton.mp hx2 with rfl; simp
      | vambig a =>
          rw [hraw] at h; dsimp only at h
          cases hset : setFieldByIndexV dst (plan.fPath.getD i [])
              (.vptr (some (conv (.vambig a)))) with
          | none => rw [hset] at h; exact Except.noConfusion h
          | some d0 =>
              rw [hset] at h
              refine ih d0 sinks (tr ++ [.vambig a]) d' tr' ?_ h
              intro x hx
              rcases List.mem_append.mp hx with hx1 | hx2
              · exact htr x hx1
              · rcases List.mem_singleton.mp hx2 with rfl; simp
      | vstructV t fs =>
          rw [hraw] at h; dsimp only at h
          cases hset : setFieldByIndexV dst (plan.fPath.getD i [])
              (.vptr (some (conv (.vstructV t fs)))) with
          | none => rw [hset] at h; exact Except.noConfusion h
          | some d0 =>
              rw [hset] at h
              refine ih d0 sinks (tr ++ [.vstructV t fs]) d' tr' ?_ h
              intro x hx
              rcases List.mem_append.mp hx with hx1 | hx2
              · exact htr x hx1
              · rcases List.mem_singleton.mp hx2 with rfl; simp
      | vptr o =>
          rw [hraw] at h; dsimp only at h
          cases hset : setFieldByIndexV dst (plan.fPath.getD i [])
              (.vptr (some (conv (.vptr o)))) with
          | none => rw [hset] at h; exact Except.noConfusion h
          | some d0 =>
              rw [hset] at h
              refine ih d0 sinks (tr ++ [.vptr o]) d' tr' ?_ h
              intro x hx
              rcases List.mem_append.mp hx with hx1 | hx2
              · exact htr x hx1
              · rcases List.mem_singleton.mp hx2 with rfl; simp
      | vmap es =>
          rw [hraw] at h; dsimp only at h
          cases hset : setFieldByIndexV dst (plan.fPath.getD i [])
              (.vptr (some (conv (.vmap es)))) with
          | none => rw [hset] at h; exact Except.noConfusion h
          | some d0 =>
              rw [hset] at h
              refine ih d0 sinks (tr ++ [.vmap es]) d' tr' ?_ h
              intro x hx
              rcases List.mem_append.mp hx with hx1 | hx2
              · exact htr x hx1
              · rcases List.mem_singleton.mp hx2 with rfl; simp
      | vzero t =>
          rw [hraw] at h; dsimp only at h
          cases hset : setFieldByIndexV dst (plan.fPath.getD i [])
              (.vptr (some (conv (.vzero t)))) with
          | none => rw [hset] at h; exact Except.noConfusion h
          | some d0 =>
              rw [hset] at h
              refine ih d0 sinks (tr ++ [.vzero t]) d' tr' ?_ h
              intro x hx
              rcases List.mem_append.mp hx with hx1 | hx2
              · exact htr x hx1
              · rcases List.mem_singleton.mp hx2 with rfl; simp

/-! ### Unterminated regions (malformed quoting) -/

theorem bc_unterminated (d : Dialect) (cfg : PCfg) (lookup : String → Option Val)
    (rl : String → Option (List Val)) (q : List Char) :
    ∀ (fuel i : Nat) (tag : List Char) (n : Nat) (buf : List Char)
      (args : List Val) (ords : List Nat),
      q.length < fuel + i → 0 < fuel →
      (∀ j, j < q.length → ¬(q.get? j = some '*' ∧ q.get? (j + 1) = some '/')) →
      parseLoopF d cfg lookup rl q fuel i .bc tag n buf args ords =
        .ok (buf ++ q.drop i, args, ords) := by
  intro fuel
  induction fuel with
  | zero => intro i tag n buf args ords hlen hpos _; omega
  | succ fuel ih =>
      intro i tag n buf args ords hlen hpos hnostar
      rw [parseLoopF]
      cases hq : q.get? i with
      | none =>
          have hge : q.length ≤ i := List.get?_eq_none.mp hq
          simp [List.drop_eq_nil_of_le hge]
      | some c =>
          have hlt : i < q.length := by
            rw [List.get?_eq_getElem?] at hq
            exact (List.getElem?_eq_some.mp hq).1
          dsimp only
          have hcond : ¬(c = '*' ∧ q.get? (i + 1) = some '/') := by
            intro ⟨hc, hc2⟩
            exact hnostar i hlt ⟨hc ▸ hq, hc2⟩
          rw [if_neg hcond]
          rw [ih (i + 1) tag n (buf ++ [c]) args ords (by omega) (by omega) hnostar]
          rw [drop_eq_cons_of_get? hq]
          simp

theorem dqd_unterminated (d : Dialect) (cfg : PCfg) (lookup : String → Option Val)
    (rl : String → Option (List Val)) (q : List Char)
    (fuel i : Nat) (tag : List Char) (n : Nat) (buf : List Char)
    (args : List Val) (ords : List Nat)
    (hlen : q.length < fuel + i) (hfuel : 1 < fuel) (htag : tag ≠ [])
    (hfind : findSub q tag i = none) :
    parseLoopF d cfg lookup rl q fuel i .dqd tag n buf args ords =
      .ok (buf ++ q.drop i, args, ords) := by
  obtain ⟨f, rfl⟩ : ∃ f, fuel = f + 1 + 1 := ⟨fuel - 2, by omega⟩
  rw [parseLoopF]
  cases hq : q.get? i with
  | none =>
      have hge : q.length ≤ i := List.get?_eq_none.mp hq
      simp [List.drop_eq_nil_of_le hge]
  | some c =>
      dsimp only
      have hne : tag.isEmpty = false := by
        cases tag with
        | nil => exact absurd rfl htag
        | cons a l => rfl
      rw [hne]
      simp only [Bool.false_eq_true, if_false]
      rw [hfind]
      rw [parseLoopF]
      have hnone : q.get? q.length = none := by
        rw [List.get?_eq_getElem?, List.getElem?_eq_none (le_refl _)]
      rw [hnone]

/-! ### Row-block counting lemmas -/

theorem mapME_ok_length {α β : Type} (f : α → Except PErr β) :
    ∀ (l : List α) (out : List β), mapME f l = .ok out → out.length = l.length := by
  intro l
  induction l with
  | nil => intro out h; rw [mapME] at h; cases h; rfl
  | cons a rest ih =>
      intro out h
      rw [mapME] at h
      simp only [Bind.bind, Except.bind] at h
      cases hfa : f a with
      | error e => rw [hfa] at h; exact Except.noConfusion h
      | ok b =>
          rw [hfa] at h
          cases hmr : mapME f rest with
          | error e => rw [hmr] at h; exact Except.noConfusion h
          | ok bs =>
              rw [hmr] at h
              cases h
              simp [ih bs hmr]

theorem resolveRow_ok_length (row : Val) (cols : List String) (name : String) (r : Nat)
    (vs : List Val) (h : resolveRow row cols name r = .ok vs) :
    vs.length = cols.length := by
  rw [resolveRow] at h
  cases hd : deIndirect row with
  | vstructV t fsv =>
      rw [hd] at h
      simp only [Bind.bind, Except.bind] at h
      cases hcp : computePaths cols t name r with
      | error e => rw [hcp] at h; exact Except.noConfusion h
      | ok paths =>
          rw [hcp] at h
          dsimp only at h
          have hpl : paths.length = cols.length := mapME_ok_length _ cols paths hcp
          cases hm : mapME (fun cp =>
              match getValueByPathAny (.vstructV t fsv) cp.2 with
              | some v => Except.ok v
              | none => Except.error (.columnNotFound cp.1 name r)) (cols.zip paths) with
          | error e => rw [hm] at h; exact Except.noConfusion h
          | ok out =>
              rw [hm] at h
              cases h
              rw [mapME_ok_length _ _ _ hm, List.length_zip, hpl]
              omega
  | null => rw [hd] at h; exact mapME_ok_length _ cols vs h
  | vint m => rw [hd] at h; exact mapME_ok_length _ cols vs h
  | vstr s => rw [hd] at h; exact mapME_ok_length _ cols vs h
  | vbytes bs => rw [hd] at h; exact mapME_ok_length _ cols vs h
  | vlist l => rw [hd] at h; exact mapME_ok_length _ cols vs h
  | vscalar w => rw [hd] at h; exact mapME_ok_length _ cols vs h
  | vvaluer w => rw [hd] at h; exact mapME_ok_length _ cols vs h
  | vambig a => rw [hd] at h; exact mapME_ok_length _ cols vs h
  | vptr o => rw [hd] at h; exact mapME_ok_length _ cols vs h
  | vmap es => rw [hd] at h; exact mapME_ok_length _ cols vs h
  | vzero t => rw [hd] at h; exact mapME_ok_length _ cols vs h

theorem resolveRowsFrom_ok_shape (cols : List String) (name : String) :
    ∀ (rows : List Val) (r : Nat) (valss : List (List Val)),
      resolveRowsFrom rows cols name r = .ok valss →
      valss.length = rows.length ∧ ∀ vs ∈ valss, vs.length = cols.length := by
  intro rows
  induction rows with
  | nil =>
      intro r valss h
      rw [resolveRowsFrom] at h
      cases h
      exact ⟨rfl, by intro vs hvs; simp at hvs⟩
  | cons row rest ih =>
      intro r valss h
      rw [resolveRowsFrom] at h
      simp only [Bind.bind, Except.bind] at h
      cases hrr : resolveRow row cols name r with
      | error e => rw [hrr] at h; exact Except.noConfusion h
      | ok vs0 =>
          rw [hrr] at h
          cases hrest : resolveRowsFrom rest cols name (r + 1) with
          | error e => rw [hrest] at h; exact Except.noConfusion h
          | ok valss' =>
              rw [hrest] at h
              cases h
              obtain ⟨hlen, hall⟩ := ih (r + 1) valss' hrest
              refine ⟨by simp [hlen], ?_⟩
              intro vs hvs
              rcases List.mem_cons.mp hvs with rfl | hmem
              · exact resolveRow_ok_length row cols name r vs hrr
              · exact hall vs hmem

theorem flatten_const_length {α : Type} (C : Nat) :
    ∀ (valss : List (List α)), (∀ vs ∈ valss, vs.length = C) →
      valss.flatten.length = valss.length * C := by
  intro valss
  induction valss with
  | nil => intro _; simp
  | cons vs rest ih =>
      intro h
      rw [List.flatten_cons, List.length_append,
        ih (fun x hx => h x (List.mem_cons_of_mem _ hx)),
        h vs (List.mem_cons_self vs rest)]
      simp [Nat.succ_mul]
      omega

theorem phStep_rows (lookup : String → Option Val) (rl : String → Option (List Val))
    (cfg : PCfg) (name : String) (cols : List String) (rows : List Val) (n : Nat)
    (valss : List (List Val))
    (hl : rl name = some rows) (hne : rows ≠ []) (hmax : cfg.maxParams = 0)
    (hres : resolveRowsFrom rows cols name 0 = .ok valss) :
    phStep lookup rl cfg (.rowsB name cols) n =
      .ok (n + rows.length * cols.length, valss.flatten,
           List.range' (n + 1) (rows.length * cols.length)) := by
  obtain ⟨hlen, hall⟩ := resolveRowsFrom_ok_shape cols name rows 0 valss hres
  have hfl : valss.flatten.length = rows.length * cols.length := by
    rw [flatten_const_length cols.length valss hall, hlen]
  rw [phStep, hl]
  dsimp only
  have hie : rows.isEmpty = false := by
    cases rows with
    | nil => exact absurd rfl hne
    | cons a l => rfl
  rw [hie]
  simp only [Bool.false_eq_true, if_false, Bind.bind, Except.bind]
  have hea : ensureAdd cfg n (rows.length * cols.length) = .ok () := by
    simp [ensureAdd, hmax]
  rw [hea, hres]
  dsimp only
  rw [hfl]

theorem phStep_scalar_list (lookup : String → Option Val) (rl : String → Option (List Val))
    (cfg : PCfg) (name : String) (vs : List Val) (n : Nat)
    (hl : lookup name = some (.vlist vs)) (hne : vs ≠ []) (hmax : cfg.maxParams = 0) :
    phStep lookup rl cfg (.scalar name) n =
      .ok (n + vs.length, vs, List.range' (n + 1) vs.length) := by
  rw [phStep, hl]
  dsimp only
  have hie : vs.isEmpty = false := by
    cases vs with
    | nil => exact absurd rfl hne
    | cons a l => rfl
  rw [hie]
  simp [ensureAdd, hmax, Bind.bind, Except.bind]

theorem phStep_scalar_emptyList (lookup : String → Option Val)
    (rl : String → Option (List Val)) (cfg : PCfg) (name : String) (n : Nat)
    (hl : lookup name = some (.vlist [])) :
    phStep lookup rl cfg (.scalar name) n = .error (.sliceEmpty name) := by
  rw [phStep, hl]
  rfl

theorem phStep_scalar_ambig (lookup : String → Option Val)
    (rl : String → Option (List Val)) (cfg : PCfg) (name a : String) (n : Nat)
    (hl : lookup name = some (.vambig a)) :
    phStep lookup rl cfg (.scalar name) n = .error (.fieldAmbiguous a) := by
  rw [phStep, hl]

theorem phStep_scalar_list_tooMany (lookup : String → Option Val)
    (rl : String → Option (List Val)) (cfg : PCfg) (name : String) (vs : List Val) (n : Nat)
    (hl : lookup name = some (.vlist vs)) (hne : vs ≠ [])
    (hmax : 0 < cfg.maxParams) (hover : cfg.maxParams < n + vs.length) :
    phStep lookup rl cfg (.scalar name) n =
      .error (.tooManyParams (n + vs.length) cfg.maxParams) := by
  rw [phStep, hl]
  dsimp only
  have hie : vs.isEmpty = false := by
    cases vs with
    | nil => exact absurd rfl hne
    | cons a l => rfl
  rw [hie]
  simp [ensureAdd, Bind.bind, Except.bind, hmax, hover]

theorem phStep_scalar_plain_tooMany (lookup : String → Option Val)
    (rl : String → Option (List Val)) (cfg : PCfg) (name : String) (v : Val) (n : Nat)
    (hl : lookup name = some v) (hp : plainBindable v = true)
    (hmax : 0 < cfg.maxParams) (hover : cfg.maxParams < n + 1) :
    phStep lookup rl cfg (.scalar name) n =
      .error (.tooManyParams (n + 1) cfg.maxParams) := by
  rw [phStep, hl]
  cases v <;> simp_all [plainBindable, ensureAdd, Bind.bind, Except.bind]

theorem phStep_rows_tooMany (lookup : String → Option Val)
    (rl : String → Option (List Val)) (cfg : PCfg) (name : String) (cols : List String)
    (rows : List Val) (n : Nat)
    (hl : rl name = some rows) (hne : rows ≠ [])
    (hmax : 0 < cfg.maxParams) (hover : cfg.maxParams < n + rows.length * cols.length) :
    phStep lookup rl cfg (.rowsB name cols) n =
      .error (.tooManyParams (n + rows.length * cols.length) cfg.maxParams) := by
  rw [phStep, hl]
  dsimp only
  have hie : rows.isEmpty = false := by
    cases rows with
    | nil => exact absurd rfl hne
    | cons a l => rfl
  rw [hie]
  simp [ensureAdd, Bind.bind, Except.bind, hmax, hover]

theorem singleLookup_ambig (t : GoType) (fs : List Val) (name : String) (fi : FieldInfo)
    (hfm : fmLookup (fieldIndexMap t) name = some fi) (ha : fi.ambiguous = true) :
    singleLookup (.vstructV t fs) name = some (.vambig name) := by
  rw [singleLookup]
  show (match Val.vstructV t fs with
        | .vmap es => assocLookup es name
        | .vstructV t _ =>
            match fmLookup (fieldIndexMap t) name with
            | some fi =>
                if fi.ambiguous then some (.vambig name)
                else
                  let val := (getValueByPathAny (Val.vstructV t fs) fi.index).getD .null
                  if fi.scalar then some (.vscalar val) else some val
            | none => none
        | _ => none) = some (.vambig name)
  dsimp only
  rw [hfm]
  dsimp only
  rw [ha]
  simp

theorem singleLookup_nilPath (t : GoType) (fs : List Val) (name : String) (fi : FieldInfo)
    (hfm : fmLookup (fieldIndexMap t) name = some fi) (hna : fi.ambiguous = false)
    (hns : fi.scalar = false)
    (hnil : pathCrossesNil (.vstructV t fs) fi.index = true) :
    singleLookup (.vstructV t fs) name = some .null := by
  rw [singleLookup]
  show (match Val.vstructV t fs with
        | .vmap es => assocLookup es name
        | .vstructV t _ =>
            match fmLookup (fieldIndexMap t) name with
            | some fi =>
                if fi.ambiguous then some (.vambig name)
                else
                  let val := (getValueByPathAny (Val.vstructV t fs) fi.index).getD .null
                  if fi.scalar then some (.vscalar val) else some val
            | none => none
        | _ => none) = some .null
  dsimp only
  rw [hfm]
  dsimp only
  rw [hna]
  simp only [Bool.false_eq_true, if_false]
  rw [getValueByPathAny_nil (.vstructV t fs) fi.index hnil]
  rw [hns]
  simp

/-- parse refines the placeholder fold: the rendered arguments, ordinals
and errors of a template are exactly those of `processPhs` over its
scanned placeholder list. -/
theorem parse_refines (d : Dialect) (cfg : PCfg) (inputs : List Val) (q : List Char)
    (phs : List Ph) (hscan : scanTemplate d cfg q = some phs) :
    (∀ e, processPhs (multiLookup inputs) (multiRowsLookup inputs) cfg phs 0 = .error e →
      parse d q inputs cfg = .error e) ∧
    (∀ n' a o, processPhs (multiLookup inputs) (multiRowsLookup inputs) cfg phs 0 =
        .ok (n', a, o) →
      ∃ text, parse d q inputs cfg = .ok (text, a, o)) := by
  have href := parseLoop_refines d cfg (multiLookup inputs) (multiRowsLookup inputs) q
    (q.length + 1) 0 .text [] 0 [] [] [] phs hscan
  rw [RefGoal] at href
  obtain ⟨herr, hok⟩ := href
  constructor
  · intro e he
    exact herr e he
  · intro n' a o ho
    obtain ⟨b, hb⟩ := hok n' a o ho
    exact ⟨b, by simpa [parse] using hb⟩

/-! ### Concrete fixtures for the claim theorems -/

/-- A plain exported field `a` without tags. -/
def metaA : FMeta := { fname := "a", tagName := none, tagDash := false,
                       tagScalar := false, exported := true }

/-- A plain exported field `b` without tags. -/
def metaB : FMeta := { fname := "b", tagName := none, tagDash := false,
                       tagScalar := false, exported := true }

/-- A destination struct whose only leaf `a` is a `*T` implementing
`sql.Scanner` (the special pointer-Scanner case of buildScanPlan). -/
def tPtrScan : GoType := .structT "S7" (.cons metaA (.ptrT (.scannerT "NS")) .nil)

/-- The scan plan buildScanPlan produces for `tPtrScan` and columns `[a]`. -/
def planPtrScan : ScanPlanL := { kinds := [.scanner], fPath := [[0]], ptrIdx := [] }

/-- A destination struct `{A int; B *string}` (the claim C8 scenario). -/
def tIntPtrStr : GoType :=
  .structT "S8" (.cons metaA (.prim "int") (.cons metaB (.ptrT (.prim "string")) .nil))

/-- First of two distinct fields exposing the column name `x`. -/
def metaX1 : FMeta := { fname := "x", tagName := none, tagDash := false,
                        tagScalar := false, exported := true }

/-- Second field exposing `x` (via its tag), colliding with `metaX1`. -/
def metaX2 : FMeta := { fname := "y", tagName := some "x", tagDash := false,
                        tagScalar := false, exported := true }

/-- A struct with two distinct leaves both exposed as column `x`. -/
def tDup : GoType := .structT "D" (.cons metaX1 (.prim "int") (.cons metaX2 (.prim "int") .nil))

/-- The row-block template of the claim C3 scenario. -/
def rowsTemplate : List Char := "INSERT INTO u(id,name) VALUES :rows{id,name}".data

/-- The two bound records `{1,"A"},{2,"B"}` of the claim C3 scenario. -/
def rowsInput : Val := .vlist [.vmap [("id", .vint 1), ("name", .vstr "A")],
                              .vmap [("id", .vint 2), ("name", .vstr "B")]]

/-! ### Claim theorems -/

/-- C1: a template whose scanned placeholders are all scalars bound to
plain (non-collection, non-ambiguous) values renders successfully with
one argument per placeholder in left-to-right occurrence order and the
strictly increasing 1-based ordinal sequence 1..N; and each single scalar
emission appends exactly one dialect-correct placeholder token to the
text. -/
theorem C1_scalar_placeholders_render :
    (∀ (d : Dialect) (cfg : PCfg) (q : List Char) (inputs : List Val) (phs : List Ph),
      cfg.maxParams = 0 →
      scanTemplate d cfg q = some phs →
      (∀ ph ∈ phs, ∃ name v, ph = .scalar name ∧
        multiLookup inputs name = some v ∧ plainBindable v = true) →
      ∃ text, parse d q inputs cfg =
        .ok (text, phs.map (scalarArgOf (multiLookup inputs)),
             List.range' 1 phs.length)) ∧
    (∀ (d : Dialect) (v : Val) (n : Nat) (buf : List Char) (args : List Val)
      (ords : List Nat),
      emitSeq d [v] true n buf args ords =
        (n + 1, buf ++ phTok d (n + 1), args ++ [v], ords ++ [n + 1])) := by
  constructor
  · intro d cfg q inputs phs hmax hscan hall
    have hp := processPhs_scalars (multiLookup inputs) (multiRowsLookup inputs)
      cfg hmax phs 0 hall
    exact (parse_refines d cfg inputs q phs hscan).2 _ _ _ hp
  · intro d v n buf args ords
    simp [emitSeq]

/-- Witness for C1: `:a AND :b` on postgres with a bound map renders with
arguments `[5, "x"]` and ordinals `[1, 2]`. -/
theorem C1_scalar_placeholders_render_witness :
    ∃ text, parse .postgres ":a AND :b".data
        [.vmap [("a", .vint 5), ("b", .vstr "x")]] ⟨0, 0⟩ =
      .ok (text, [.vint 5, .vstr "x"], [1, 2]) := by
  have h := C1_scalar_placeholders_render.1 .postgres ⟨0, 0⟩ ":a AND :b".data
    [.vmap [("a", .vint 5), ("b", .vstr "x")]] [.scalar "a", .scalar "b"]
    rfl (by rfl) ?_
  · simpa using h
  · intro ph hph
    rcases List.mem_cons.mp hph with rfl | hph2
    · exact ⟨"a", .vint 5, rfl, rfl, rfl⟩
    rcases List.mem_cons.mp hph2 with rfl | hph3
    · exact ⟨"b", .vstr "x", rfl, rfl, rfl⟩
    · simp at hph3

/-- C2: a scalar placeholder bound to a sequence of length K expands into
exactly K arguments in element order with K fresh ordinals; an empty
sequence fails with SliceEmpty(name) — at the per-placeholder step and
through a full render of a single-placeholder template. -/
theorem C2_slice_expansion :
    (∀ (lookup : String → Option Val) (rl : String → Option (List Val)) (cfg : PCfg)
      (name : String) (vs : List Val) (n : Nat),
      lookup name = some (.vlist vs) → vs ≠ [] → cfg.maxParams = 0 →
      phStep lookup rl cfg (.scalar name) n =
        .ok (n + vs.length, vs, List.range' (n + 1) vs.length)) ∧
    (∀ (lookup : String → Option Val) (rl : String → Option (List Val)) (cfg : PCfg)
      (name : String) (n : Nat),
      lookup name = some (.vlist []) →
      phStep lookup rl cfg (.scalar name) n = .error (.sliceEmpty name)) ∧
    (∀ (d : Dialect) (cfg : PCfg) (q : List Char) (inputs : List Val) (name : String)
      (vs : List Val),
      cfg.maxParams = 0 →
      scanTemplate d cfg q = some [.scalar name] →
      multiLookup inputs name = some (.vlist vs) →
      (vs ≠ [] → ∃ text, parse d q inputs cfg =
        .ok (text, vs, List.range' 1 vs.length)) ∧
      (vs = [] → parse d q inputs cfg = .error (.sliceEmpty name))) := by
  refine ⟨phStep_scalar_list, phStep_scalar_emptyList, ?_⟩
  intro d cfg q inputs name vs hmax hscan hl
  constructor
  · intro hne
    have hstep := phStep_scalar_list (multiLookup inputs) (multiRowsLookup inputs)
      cfg name vs 0 hl hne hmax
    have hp : processPhs (multiLookup inputs) (multiRowsLookup inputs) cfg
        [.scalar name] 0 = .ok (vs.length, vs, List.range' 1 vs.length) := by
      rw [processPhs]
      simp only [Bind.bind, Except.bind, hstep]
      rw [processPhs]
      simp
    exact (parse_refines d cfg inputs q [.scalar name] hscan).2 _ _ _ hp
  · intro hvs
    subst hvs
    have hstep := phStep_scalar_emptyList (multiLookup inputs) (multiRowsLookup inputs)
      cfg name 0 hl
    have hp : processPhs (multiLookup inputs) (multiRowsLookup inputs) cfg
        [.scalar name] 0 = .error (.sliceEmpty name) := by
      rw [processPhs]
      simp only [Bind.bind, Except.bind, hstep]
    exact (parse_refines d cfg inputs q [.scalar name] hscan).1 _ hp

/-- Witness for C2: `:ids` bound to `[1, 2, 3]` expands to three
placeholders and arguments `[1, 2, 3]`; bound to `[]` it fails with
SliceEmpty. -/
theorem C2_slice_expansion_witness :
    (∃ text, parse .mysql ":ids".data
        [.vmap [("ids", .vlist [.vint 1, .vint 2, .vint 3])]] ⟨0, 0⟩ =
      .ok (text, [.vint 1, .vint 2, .vint 3], [1, 2, 3])) ∧
    parse .mysql ":ids".data [.vmap [("ids", .vlist [])]] ⟨0, 0⟩ =
      .error (.sliceEmpty "ids") := by
  constructor
  · have h := (C2_slice_expansion.2.2 .mysql ⟨0, 0⟩ ":ids".data
      [.vmap [("ids", .vlist [.vint 1, .vint 2, .vint 3])]] "ids"
      [.vint 1, .vint 2, .vint 3] rfl (by rfl) rfl).1 (by simp)
    simpa using h
  · exact (C2_slice_expansion.2.2 .mysql ⟨0, 0⟩ ":ids".data
      [.vmap [("ids", .vlist [])]] "ids" [] rfl (by rfl) rfl).2 rfl

set_option maxRecDepth 10000 in
/-- C3 counterexample: the concrete row-block scenario of the claim
renders its two row tuples with comma-space separators —
`VALUES (?, ?), (?, ?)` — not the claimed `VALUES (?,?),(?,?)`. -/
theorem C3_rows_counterexample :
    parse .mysql rowsTemplate [rowsInput] ⟨0, 0⟩ =
      .ok ("INSERT INTO u(id,name) VALUES (?, ?), (?, ?)".data,
           [.vint 1, .vstr "A", .vint 2, .vstr "B"], [1, 2, 3, 4]) ∧
    "INSERT INTO u(id,name) VALUES (?, ?), (?, ?)".data ≠
      "INSERT INTO u(id,name) VALUES (?,?),(?,?)".data := by
  exact ⟨by rfl, by decide⟩

set_option maxRecDepth 10000 in
/-- C3 (amended): a row-block placeholder bound to R resolvable rows of C
requested columns emits exactly R*C arguments in row-major order and R*C
fresh ordinals; the concrete scenario renders
`INSERT INTO u(id,name) VALUES (?, ?), (?, ?)` (comma-space separated)
with args `[1, "A", 2, "B"]`. -/
theorem C3_rows_rowmajor_amended :
    (∀ (lookup : String → Option Val) (rl : String → Option (List Val)) (cfg : PCfg)
      (name : String) (cols : List String) (rows : List Val) (n : Nat)
      (valss : List (List Val)),
      rl name = some rows → rows ≠ [] → cfg.maxParams = 0 →
      resolveRowsFrom rows cols name 0 = .ok valss →
      phStep lookup rl cfg (.rowsB name cols) n =
        .ok (n + rows.length * cols.length, valss.flatten,
             List.range' (n + 1) (rows.length * cols.length))) ∧
    parse .mysql rowsTemplate [rowsInput] ⟨0, 0⟩ =
      .ok ("INSERT INTO u(id,name) VALUES (?, ?), (?, ?)".data,
           [.vint 1, .vstr "A", .vint 2, .vstr "B"], [1, 2, 3, 4]) := by
  exact ⟨phStep_rows, by rfl⟩

/-- Witness for the amended C3: the concrete two-record rows lookup emits
4 = 2*2 row-major arguments with ordinals `[1, 2, 3, 4]`. -/
theorem C3_rows_rowmajor_amended_witness :
    phStep (fun _ => none) (multiRowsLookup [rowsInput]) ⟨0, 0⟩
        (.rowsB "rows" ["id", "name"]) 0 =
      .ok (4, [.vint 1, .vstr "A", .vint 2, .vstr "B"], [1, 2, 3, 4]) := by
  have h := C3_rows_rowmajor_amended.1 (fun _ => none) (multiRowsLookup [rowsInput])
    ⟨0, 0⟩ "rows" ["id", "name"]
    [.vmap [("id", .vint 1), ("name", .vstr "A")], .vmap [("id", .vint 2), ("name", .vstr "B")]]
    0 [[.vint 1, .vstr "A"], [.vint 2, .vstr "B"]] rfl (by simp) rfl rfl
  simpa using h

/-- C4: inside any quoted literal or comment region (single/double/backtick
/bracket quote, line/block comment, dollar-quoted tag) the parser copies
the region's characters to the output verbatim and re-enters Plain state
further right, with the ordinal counter, argument list and ordinal list
unchanged — so no placeholder-shaped token inside such a region is ever
bound or counted. -/
theorem C4_region_transparency (d : Dialect) (cfg : PCfg) (lookup : String → Option Val)
    (rl : String → Option (List Val)) (q : List Char) (fuel i : Nat) (st : PState)
    (tag : List Char) (n : Nat) (buf : List Char) (args : List Val) (ords : List Nat)
    (hst : st ≠ .text) (hlen : q.length < (fuel + 1) + i) :
    ∃ j f2 tag2, i ≤ j ∧
      parseLoopF d cfg lookup rl q (fuel + 1) i st tag n buf args ords =
        parseLoopF d cfg lookup rl q (f2 + 1) j .text tag2 n
          (buf ++ listSlice q i j) args ords := by
  rcases region_skip d cfg lookup rl q fuel i st tag n buf args ords hst with h | h
  · exact h
  · exact absurd h (parseLoopF_no_outOfFuel d cfg lookup rl q (fuel + 1) i st tag n
      buf args ords hlen (by omega))

/-- Witness for C4: the single-quoted region of `'x :a'` is copied
verbatim from inside the literal with no argument and no ordinal. -/
theorem C4_region_transparency_witness :
    ∃ j f2 tag2, 1 ≤ j ∧
      parseLoopF .mysql ⟨0, 0⟩ (fun _ => some (.vint 1)) (fun _ => none)
          "'x :a'".data 6 1 .sq [] 0 ['\''] [] [] =
        parseLoopF .mysql ⟨0, 0⟩ (fun _ => some (.vint 1)) (fun _ => none)
          "'x :a'".data (f2 + 1) j .text tag2 0
          (['\''] ++ listSlice "'x :a'".data 1 j) [] [] := by
  exact C4_region_transparency .mysql ⟨0, 0⟩ (fun _ => some (.vint 1)) (fun _ => none)
    "'x :a'".data 5 1 .sq [] 0 ['\''] [] [] (by decide) (by decide)

/-- C5: a record type with two distinct flattened leaves exposing the same
column name marks that name ambiguous in the field index map, and every
operation touching the name fails with a FieldAmbiguous error — scalar
placeholder resolution, row-block column-path resolution, and scan-plan
construction — never silently picking one candidate field. -/
theorem C5_ambiguous_name_fails (t : GoType) (name : String)
    (h : 2 ≤ leafCount (flatT t []) name) :
    (∃ fi, fmLookup (fieldIndexMap t) name = some fi ∧ fi.ambiguous = true) ∧
    (∀ (fs : List Val) (rl : String → Option (List Val)) (cfg : PCfg) (n : Nat),
      phStep (singleLookup (.vstructV t fs)) rl cfg (.scalar name) n =
        .error (.fieldAmbiguous name)) ∧
    (∀ (cols : List String) (pn : String) (r : Nat),
      (name ∈ cols → ∀ out, computePaths cols t pn r ≠ .ok out) ∧
      computePaths [name] t pn r = .error (.fieldAmbiguousRows name pn r)) ∧
    (∀ cols : List String,
      (name ∈ cols → ∀ plan, buildScanPlan cols t ≠ .ok plan) ∧
      buildScanPlan [name] t = .error (.fieldAmbiguous name)) := by
  obtain ⟨fi, hfm, hamb⟩ := fieldIndexMap_ambiguous t name h
  have hstrip : ∃ fi, fmLookup (fieldIndexMap (stripPtrs t)) name = some fi ∧
      fi.ambiguous = true := by
    apply fieldIndexMap_ambiguous
    rw [stripPtrs_flatT]
    exact h
  obtain ⟨fi', hfm', hamb'⟩ := hstrip
  refine ⟨⟨fi, hfm, hamb⟩, ?_, ?_, ?_⟩
  · intro fs rl cfg n
    exact phStep_scalar_ambig _ rl cfg name name n (singleLookup_ambig t fs name fi hfm hamb)
  · intro cols pn r
    have hone : (fun col =>
        match fmLookup (fieldIndexMap t) col with
        | none => Except.error (PErr.columnNotFound col pn r)
        | some fi =>
            if fi.ambiguous then Except.error (PErr.fieldAmbiguousRows col pn r)
            else Except.ok fi.index) name =
          Except.error (PErr.fieldAmbiguousRows name pn r) := by
      simp only [hfm, hamb, if_true]
    constructor
    · intro hmem out
      exact mapME_mem_err _ cols ⟨name, hmem, _, hone⟩ out
    · rw [computePaths, mapME]
      simp only [Bind.bind, Except.bind, hfm, hamb, if_true]
  · intro cols
    have hcls : classifyCol (stripPtrs t) (fieldIndexMap (stripPtrs t)) name =
        .error (.fieldAmbiguous name) := by
      rw [classifyCol, hfm']
      simp [hamb']
    constructor
    · intro hmem plan hok
      rw [buildScanPlan] at hok
      simp only [Bind.bind, Except.bind] at hok
      cases hm : mapME (classifyCol (stripPtrs t) (fieldIndexMap (stripPtrs t))) cols with
      | error e => rw [hm] at hok; exact Except.noConfusion hok
      | ok entries => exact mapME_mem_err _ cols ⟨name, hmem, _, hcls⟩ entries hm
    · rw [buildScanPlan]
      simp only [Bind.bind, Except.bind]
      rw [mapME]
      simp only [Bind.bind, Except.bind, hcls]

/-- Witness for C5: the struct `D` with fields `x` and tag-renamed `y`
(both exposing column `x`) fails scalar resolution, rows resolution and
scan-plan construction with FieldAmbiguous on `x`. -/
theorem C5_ambiguous_name_fails_witness :
    phStep (singleLookup (.vstructV tDup [.vint 1, .vint 2])) (fun _ => none)
        ⟨0, 0⟩ (.scalar "x") 0 = .error (.fieldAmbiguous "x") ∧
    computePaths ["x"] tDup "rows" 0 = .error (.fieldAmbiguousRows "x" "rows" 0) ∧
    buildScanPlan ["x"] tDup = .error (.fieldAmbiguous "x") := by
  refine ⟨(C5_ambiguous_name_fails tDup "x" (by decide)).2.1 [.vint 1, .vint 2]
      (fun _ => none) ⟨0, 0⟩ 0,
    ((C5_ambiguous_name_fails tDup "x" (by decide)).2.2.1 ["x"] "rows" 0).2,
    ((C5_ambiguous_name_fails tDup "x" (by decide)).2.2.2 ["x"]).2⟩

/-- C6: the maxParams ceiling is enforced per batch — 1 for a single
value, K for a length-K collection, R*C for a row-block — failing with
TooManyParams(requested, limit) when the batch would exceed the limit,
and any render error yields the caller an empty text and an empty
argument list (no partial output). -/
theorem C6_maxparams_no_partial_output :
    (∀ (cfg : PCfg) (n add : Nat), 0 < cfg.maxParams → cfg.maxParams < n + add →
      ensureAdd cfg n add = .error (.tooManyParams (n + add) cfg.maxParams)) ∧
    (∀ (lookup : String → Option Val) (rl : String → Option (List Val)) (cfg : PCfg)
      (name : String) (v : Val) (n : Nat),
      lookup name = some v → plainBindable v = true →
      0 < cfg.maxParams → cfg.maxParams < n + 1 →
      phStep lookup rl cfg (.scalar name) n =
        .error (.tooManyParams (n + 1) cfg.maxParams)) ∧
    (∀ (lookup : String → Option Val) (rl : String → Option (List Val)) (cfg : PCfg)
      (name : String) (vs : List Val) (n : Nat),
      lookup name = some (.vlist vs) → vs ≠ [] →
      0 < cfg.maxParams → cfg.maxParams < n + vs.length →
      phStep lookup rl cfg (.scalar name) n =
        .error (.tooManyParams (n + vs.length) cfg.maxParams)) ∧
    (∀ (lookup : String → Option Val) (rl : String → Option (List Val)) (cfg : PCfg)
      (name : String) (cols : List String) (rows : List Val) (n : Nat),
      rl name = some rows → rows ≠ [] →
      0 < cfg.maxParams → cfg.maxParams < n + rows.length * cols.length →
      phStep lookup rl cfg (.rowsB name cols) n =
        .error (.tooManyParams (n + rows.length * cols.length) cfg.maxParams)) ∧
    (∀ (d : Dialect) (q : List Char) (inputs : List Val) (cfg : PCfg) (e : PErr),
      parse d q inputs cfg = .error e →
      parseGo d q inputs cfg = (([], []), some e)) := by
  refine ⟨?_, phStep_scalar_plain_tooMany, phStep_scalar_list_tooMany,
    phStep_rows_tooMany, ?_⟩
  · intro cfg n add hpos hover
    simp [ensureAdd, hpos, hover]
  · intro d q inputs cfg e h
    rw [parseGo, h]

/-- Witness for C6: a two-row two-column row-block against a limit of 3
fails with TooManyParams(4, 3); the full render of that template fails
identically and returns empty text and arguments. -/
theorem C6_maxparams_no_partial_output_witness :
    phStep (fun _ => none) (multiRowsLookup [rowsInput]) ⟨3, 0⟩
        (.rowsB "rows" ["id", "name"]) 0 = .error (.tooManyParams 4 3) ∧
    parseGo .mysql rowsTemplate [rowsInput] ⟨3, 0⟩ = (([], []), some (.tooManyParams 4 3)) := by
  constructor
  · have h := C6_maxparams_no_partial_output.2.2.2.1 (fun _ => none)
      (multiRowsLookup [rowsInput]) ⟨3, 0⟩ "rows" ["id", "name"]
      [.vmap [("id", .vint 1), ("name", .vstr "A")], .vmap [("id", .vint 2), ("name", .vstr "B")]]
      0 rfl (by simp) (by decide) (by decide)
    simpa using h
  · exact C6_maxparams_no_partial_output.2.2.2.2 .mysql rowsTemplate [rowsInput] ⟨3, 0⟩
      (.tooManyParams 4 3) (by set_option maxRecDepth 10000 in rfl)

/-- C7: for a leaf that is a pointer type implementing Scanner, the scan
captures the raw driver value into a generic sink (never touching the
destination during the fetch), and only post-fetch allocates and converts
— and only if the sink is non-null: a NULL leaves the leaf nil with the
conversion never invoked, and no conversion in the post-fetch pass is
ever applied to a null representation. -/
theorem C7_ptr_scanner_null_safety :
    buildScanPlan ["a"] tPtrScan = .ok planPtrScan ∧
    (∀ conv : Val → Val,
      scanOneWithPlanM conv ["a"] tPtrScan (zeroVal tPtrScan) [.null] =
        .ok (.vstructV tPtrScan [.vptr none], [])) ∧
    (∀ conv : Val → Val,
      scanOneWithPlanM conv ["a"] tPtrScan (zeroVal tPtrScan) [.vint 7] =
        .ok (.vstructV tPtrScan [.vptr (some (conv (.vint 7)))], [.vint 7])) ∧
    (∀ (conv : Val → Val) (dstT : GoType) (plan : ScanPlanL) (raw : List Val)
      (i : Nat) (st : ScanSt),
      plan.kinds.get? i = some .scanner →
      isPtrScanner (fieldTypByIndexD dstT (plan.fPath.getD i [])) = true →
      scanColAssign conv dstT plan raw i st =
        .ok { st with sinks := st.sinks.set i (raw.getD i .null) }) ∧
    (∀ (conv : Val → Val) (plan : ScanPlanL) (idxs : List Nat) (dst : Val)
      (sinks : List Val) (d' : Val) (tr' : List Val),
      applyPtrScanners conv plan idxs dst sinks [] = .ok (d', tr') →
      ∀ x ∈ tr', x ≠ Val.null) := by
  refine ⟨rfl, fun conv => rfl, fun conv => rfl, scanColAssign_scanner_capture, ?_⟩
  intro conv plan idxs dst sinks d' tr' h
  exact applyPtrScanners_trace_nonnull conv plan idxs dst sinks [] d' tr' (by simp) h

/-- Witness for C7: a scanner column with a pointer-Scanner leaf captures
the raw value `5` into the sink, leaving destination, holders and trace
untouched. -/
theorem C7_ptr_scanner_null_safety_witness :
    scanColAssign (fun v => v) tPtrScan planPtrScan [.vint 5] 0
        ⟨zeroVal tPtrScan, [none], [.null], []⟩ =
      .ok ⟨zeroVal tPtrScan, [none], [.vint 5], []⟩ := by
  have h := C7_ptr_scanner_null_safety.2.2.2.1 (fun v => v) tPtrScan planPtrScan
    [.vint 5] 0 ⟨zeroVal tPtrScan, [none], [.null], []⟩ rfl rfl
  simpa using h

/-- C8: each reusable pointer-column holder is reset to empty before every
row; a NULL raw value sets the holder (and so the leaf) to nil while a
NULL into a plain value column propagates a scan error; and in the
concrete two-row scenario `(1,NULL)`, `(3,NULL)` — and even after row one
held a non-null `"x"` — row two's `B` leaf is nil (no leakage). -/
theorem C8_null_pointer_holder_reset :
    (∀ (plan : ScanPlanL) (holders : List (Option Val)) (i : Nat),
      i ∈ plan.ptrIdx → i < holders.length →
      (resetHolders plan holders).get? i = some none) ∧
    (∀ (conv : Val → Val) (dstT : GoType) (plan : ScanPlanL) (raw : List Val)
      (i : Nat) (st : ScanSt),
      plan.kinds.get? i = some .ptrK → raw.getD i .null = .null →
      scanColAssign conv dstT plan raw i st =
        .ok { st with holders := st.holders.set i none }) ∧
    (∀ (conv : Val → Val) (dstT : GoType) (plan : ScanPlanL) (raw : List Val)
      (i : Nat) (st : ScanSt),
      plan.kinds.get? i = some .value → raw.getD i .null = .null →
      scanColAssign conv dstT plan raw i st = .error (.nullIntoValue i)) ∧
    (∀ conv : Val → Val,
      scanAllStructsM conv ["a", "b"] tIntPtrStr [[.vint 1, .null], [.vint 3, .null]] =
        .ok [.vstructV tIntPtrStr [.vint 1, .vptr none],
             .vstructV tIntPtrStr [.vint 3, .vptr none]]) ∧
    (∀ conv : Val → Val,
      scanAllStructsM conv ["a", "b"] tIntPtrStr [[.vint 1, .vstr "x"], [.vint 3, .null]] =
        .ok [.vstructV tIntPtrStr [.vint 1, .vptr (some (.vstr "x"))],
             .vstructV tIntPtrStr [.vint 3, .vptr none]]) := by
  exact ⟨resetHolders_mem, scanColAssign_ptrK_null, scanColAssign_value_null,
    fun conv => rfl, fun conv => rfl⟩

/-- Witness for C8: a holder still carrying row one's `"x"` is reset to
empty before row two, and a NULL raw value at the pointer column empties
the holder. -/
theorem C8_null_pointer_holder_reset_witness :
    (resetHolders ⟨[.value, .ptrK], [[0], [1]], [1]⟩
        [some (.vstr "x"), some (.vstr "y")]).get? 1 = some none ∧
    scanColAssign (fun v => v) tIntPtrStr ⟨[.value, .ptrK], [[0], [1]], [1]⟩
        [.vint 3, .null] 1 ⟨zeroVal tIntPtrStr, [none, some (.vstr "x")], [.null, .null], []⟩ =
      .ok ⟨zeroVal tIntPtrStr, [none, none], [.null, .null], []⟩ := by
  constructor
  · exact C8_null_pointer_holder_reset.1 ⟨[.value, .ptrK], [[0], [1]], [1]⟩
      [some (.vstr "x"), some (.vstr "y")] 1 (by decide) (by decide)
  · have h := C8_null_pointer_holder_reset.2.1 (fun v => v) tIntPtrStr
      ⟨[.value, .ptrK], [[0], [1]], [1]⟩ [.vint 3, .null] 1
      ⟨zeroVal tIntPtrStr, [none, some (.vstr "x")], [.null, .null], []⟩ rfl rfl
    simpa using h

/-- C9: rendering always terminates within its fuel (the out-of-fuel
artifact of the embedding is unreachable), an unterminated block comment
consumes the remainder of the input verbatim without error, and an
unterminated dollar-quoted region consumes the remainder as literal text
without error — binding no placeholder in either region. -/
theorem C9_termination_unterminated_regions :
    (∀ (d : Dialect) (q : List Char) (inputs : List Val) (cfg : PCfg),
      parse d q inputs cfg ≠ .error .outOfFuel) ∧
    (∀ (d : Dialect) (cfg : PCfg) (lookup : String → Option Val)
      (rl : String → Option (List Val)) (q : List Char) (fuel i : Nat)
      (tag : List Char) (n : Nat) (buf : List Char) (args : List Val) (ords : List Nat),
      q.length < fuel + i → 0 < fuel →
      (∀ j, j < q.length → ¬(q.get? j = some '*' ∧ q.get? (j + 1) = some '/')) →
      parseLoopF d cfg lookup rl q fuel i .bc tag n buf args ords =
        .ok (buf ++ q.drop i, args, ords)) ∧
    (∀ (d : Dialect) (cfg : PCfg) (lookup : String → Option Val)
      (rl : String → Option (List Val)) (q : List Char) (fuel i : Nat)
      (tag : List Char) (n : Nat) (buf : List Char) (args : List Val) (ords : List Nat),
      q.length < fuel + i → 1 < fuel → tag ≠ [] → findSub q tag i = none →
      parseLoopF d cfg lookup rl q fuel i .dqd tag n buf args ords =
        .ok (buf ++ q.drop i, args, ords)) := by
  refine ⟨?_, ?_, ?_⟩
  · intro d q inputs cfg
    exact parseLoopF_no_outOfFuel d cfg (multiLookup inputs) (multiRowsLookup inputs)
      q (q.length + 1) 0 .text [] 0 [] [] [] (by omega) (by omega)
  · intro d cfg lookup rl q fuel i tag n buf args ords h1 h2 h3
    exact bc_unterminated d cfg lookup rl q fuel i tag n buf args ords h1 h2 h3
  · intro d cfg lookup rl q fuel i tag n buf args ords h1 h2 h3 h4
    exact dqd_unterminated d cfg lookup rl q fuel i tag n buf args ords h1 h2 h3 h4

/-- Witness for C9: the unterminated block comment `/* :x` and the
unterminated dollar-quoted region `$t$ :x` both copy the rest of the
input without error, binding nothing. -/
theorem C9_termination_unterminated_regions_witness :
    parseLoopF .mysql ⟨0, 0⟩ (fun _ => none) (fun _ => none) "/* :x".data
        4 2 .bc [] 0 "/*".data [] [] = .ok ("/* :x".data, [], []) ∧
    parseLoopF .mysql ⟨0, 0⟩ (fun _ => none) (fun _ => none) "$t$ :x".data
        5 3 .dqd "$t$".data 0 "$t$".data [] [] = .ok ("$t$ :x".data, [], []) := by
  constructor
  · have h := C9_termination_unterminated_regions.2.1 .mysql ⟨0, 0⟩
      (fun _ => none) (fun _ => none) "/* :x".data 4 2 [] 0 "/*".data [] []
      (by decide) (by decide) (by decide)
    simpa using h
  · have h := C9_termination_unterminated_regions.2.2 .mysql ⟨0, 0⟩
      (fun _ => none) (fun _ => none) "$t$ :x".data 5 3 "$t$".data 0 "$t$".data [] []
      (by decide) (by decide) (by decide) (by decide)
    simpa using h

/-- C10: a scalar placeholder resolving through a bound record to a field
whose path crosses, or ends at, a nil pointer does not fail with
ParamMissing: the path walk reports SQL NULL, the lookup yields a null
value, the per-placeholder step succeeds binding a single NULL argument,
and a full render of a single-placeholder template succeeds with
arguments `[NULL]`. -/
theorem C10_nil_path_binds_null :
    (∀ (v : Val) (path : List Nat), pathCrossesNil v path = true →
      getValueByPathAny v path = some .null) ∧
    (∀ (t : GoType) (fs : List Val) (name : String) (fi : FieldInfo),
      fmLookup (fieldIndexMap t) name = some fi → fi.ambiguous = false →
      fi.scalar = false → pathCrossesNil (.vstructV t fs) fi.index = true →
      singleLookup (.vstructV t fs) name = some .null) ∧
    (∀ (t : GoType) (fs : List Val) (name : String) (fi : FieldInfo)
      (rl : String → Option (List Val)) (cfg : PCfg) (n : Nat),
      fmLookup (fieldIndexMap t) name = some fi → fi.ambiguous = false →
      fi.scalar = false → pathCrossesNil (.vstructV t fs) fi.index = true →
      cfg.maxParams = 0 →
      phStep (singleLookup (.vstructV t fs)) rl cfg (.scalar name) n =
        .ok (n + 1, [.null], [n + 1])) ∧
    (∀ (d : Dialect) (cfg : PCfg) (q : List Char) (t : GoType) (fs : List Val)
      (name : String) (fi : FieldInfo),
      cfg.maxParams = 0 →
      scanTemplate d cfg q = some [.scalar name] →
      fmLookup (fieldIndexMap t) name = some fi → fi.ambiguous = false →
      fi.scalar = false → pathCrossesNil (.vstructV t fs) fi.index = true →
      ∃ text, parse d q [.vstructV t fs] cfg = .ok (text, [.null], [1])) := by
  refine ⟨getValueByPathAny_nil, singleLookup_nilPath, ?_, ?_⟩
  · intro t fs name fi rl cfg n hfm hna hns hnil hmax
    have hl := singleLookup_nilPath t fs name fi hfm hna hns hnil
    have h := phStep_scalar_plain (singleLookup (.vstructV t fs)) rl cfg name .null n
      hl rfl hmax
    simpa [scalarArg] using h
  · intro d cfg q t fs name fi hmax hscan hfm hna hns hnil
    have hl : multiLookup [.vstructV t fs] name = some .null := by
      rw [multiLookup]
      rw [multiLookup]
      exact singleLookup_nilPath t fs name fi hfm hna hns hnil
    have hstep := phStep_scalar_plain (multiLookup [.vstructV t fs])
      (multiRowsLookup [.vstructV t fs]) cfg name .null 0 hl rfl hmax
    have hp : processPhs (multiLookup [.vstructV t fs]) (multiRowsLookup [.vstructV t fs])
        cfg [.scalar name] 0 = .ok (1, [.null], [1]) := by
      rw [processPhs]
      simp only [Bind.bind, Except.bind, hstep]
      rw [processPhs]
      simp [scalarArg]
    exact (parse_refines d cfg [.vstructV t fs] q [.scalar name] hscan).2 _ _ _ hp

/-- Witness for C10: rendering `:b` against a struct whose `B *string`
leaf is nil succeeds with a NULL argument. -/
theorem C10_nil_path_binds_null_witness :
    ∃ text, parse .postgres ":b".data [.vstructV tIntPtrStr [.vint 1, .vptr none]] ⟨0, 0⟩ =
      .ok (text, [.null], [1]) := by
  exact C10_nil_path_binds_null.2.2.2 .postgres ⟨0, 0⟩ ":b".data tIntPtrStr
    [.vint 1, .vptr none] "b" ⟨[1], false, false⟩ rfl (by rfl) (by rfl) rfl rfl (by rfl)
